import Mathlib

/-!
Shallow embedding of the phoru rule compiler (src/hpat/phoru/phorulib.py)
and proofs about the claims of its specification.

The embedding follows the Python source closely:

* the target-template mini-language (class Rule.MiniLanguage) is modelled
  over parsed format tokens (literal text / replacement fields), with the
  same state: the remaining prefix-group pool, the remaining suffix-group
  pool, the source-seen flag and the accumulated mapping calls;
* group inventories (Rule.get_groups) are modelled by direct character
  scanners for the definition pattern (?P<name>...) and the backreference
  pattern (?P=name), keyed by the offset of the name, merged and sorted,
  exactly as the Python finditer / dict / sorted pipeline does;
* pattern assembly (Rule.get_pattern) concatenates the possibly-wrapped
  prefix, source and suffix fragments textually;
* the jq translation (_to_jq) is modelled as the same four textual
  rewrites plus the mapping-table serialization;
* rule application (Rule.__call__) is modelled by a small regex engine
  (characters, concatenation, alternation, named groups) together with a
  parser for that fragment of the pattern syntax, a leftmost-match search
  and a global-substitution loop with Python's empty-match handling.

All definitions are executable (fuel-based structural recursion), so the
counterexamples and witnesses evaluate by decide / rfl.
-/

namespace Phoru

/-- Word characters as in the regex class backslash-w: letters, digits and
underscore (modelled for the alphanumeric characters Lean knows). -/
def isWordChar (c : Char) : Bool := c.isAlphanum || c = '_'

/-- One parsed token of a target template, as produced by the Python
format-string parser: either literal text or a replacement field carrying
its field name. -/
inductive Tok where
  | lit (s : String)
  | field (f : String)
deriving DecidableEq

/-- Key of a user-supplied mapping table: Python mapping tables are keyed
either by a bare string (single-group calls) or by a tuple of strings
(multi-group calls). -/
inductive MKey where
  | str (s : String)
  | tup (l : List String)
deriving DecidableEq

/-- A user mapping table: association list from keys to replacement
strings, in insertion order (Python dict order). -/
def UserMapping := List (MKey × String)
deriving instance DecidableEq for UserMapping

/-- The declared mappings of a rule: mapping name to table, insertion
ordered. -/
def Maps := List (String × UserMapping)
deriving instance DecidableEq for Maps

/-- Model of Rule.MiniLanguage.GROUP_REF.match: an optional sign '+' or
'-' followed by at least one word character (the maximal run); trailing
text is ignored, as re.match only anchors at the start.  Returns the sign
(empty string when absent) and the group name. -/
def parseGroupRef (f : String) : Option (String × String) :=
  match f.data with
  | [] => none
  | c :: rest =>
    if c = '+' || c = '-' then
      let w := rest.takeWhile isWordChar
      if w.isEmpty then none else some (String.mk [c], String.mk w)
    else
      let w := (c :: rest).takeWhile isWordChar
      if w.isEmpty then none else some ("", String.mk w)

/-- Auxiliary for parseMapCall: the (',' word+)* tail of the group list.
Stops (without consuming) as soon as no further ",name" part matches,
exactly like the regex's starred group.  Structural recursion on a fuel
argument (always called with more fuel than characters) keeps the
definition computable by the kernel. -/
def parseGroupsRest : Nat → List Char → List String × List Char
  | 0, l => ([], l)
  | fuel + 1, ',' :: rest =>
    let w := rest.takeWhile isWordChar
    if w.isEmpty then ([], ',' :: rest)
    else
      let (ws, r) := parseGroupsRest fuel (rest.drop w.length)
      (String.mk w :: ws, r)
  | _ + 1, l => ([], l)

/-- Model of Rule.MiniLanguage.MAP_CALL.match: a mapping name (word+),
'[', a comma-separated list of group names, ']'; trailing text is ignored
(prefix match). -/
def parseMapCall (f : String) : Option (String × List String) :=
  let cs := f.data
  let name := cs.takeWhile isWordChar
  if name.isEmpty then none else
  match cs.drop name.length with
  | '[' :: rest =>
    let w := rest.takeWhile isWordChar
    if w.isEmpty then none else
    let (ws, r) := parseGroupsRest (rest.length + 1) (rest.drop w.length)
    match r with
    | ']' :: _ => some (String.mk name, String.mk w :: ws)
    | _ => none
  | _ => none

/-- The mutable bookkeeping of Rule.MiniLanguage during one format run:
remaining prefix groups, remaining suffix groups, the source-seen flag and
the set of mapping calls (modelled as an insertion-ordered duplicate-free
list). -/
structure MLState where
  prefixGroups : List String
  suffixGroups : List String
  sourceSeen : Bool
  mapCalls : List (String × List String)
deriving DecidableEq

/-- Remove the first occurrence of g (Python list.index followed by
list.pop); none when g is absent, which in Python raises ValueError. -/
def popFirst (g : String) : List String → Option (List String)
  | [] => none
  | x :: xs => if x = g then some xs else (popFirst g xs).map (x :: ·)

/-- Resolution of the shorthand key: the group name "_" stands for the
canonical source group. -/
def resolveName (g0 : String) : String := if g0 = "_" then "source" else g0

/-- Model of Rule.MiniLanguage.get_value.  The branches follow the Python
method: the literal key "_" emits the source reference once; otherwise the
key must match GROUP_REF; '+' emits a group reference without consuming;
'-' (or a bare name) on "source" consumes the source-seen flag, and on any
other name removes the name from the prefix pool (before the source was
seen) or the suffix pool (after). -/
def getValue (st : MLState) (key : String) : Except String (String × MLState) :=
  if key = "_" then
    if !st.sourceSeen then .ok ("\\g<source>", { st with sourceSeen := true })
    else .error "duplicated source cannot be written with \x7b_\x7d, use \x7b+_\x7d instead"
  else
    match parseGroupRef key with
    | some (sign, g0) =>
      if sign = "+" then .ok ("\\g<" ++ resolveName g0 ++ ">", st)
      else if resolveName g0 = "source" then
        if !st.sourceSeen then .ok ("", { st with sourceSeen := true })
        else .error "key \x7b-_\x7d cannot be duplicated"
      else
        if !st.sourceSeen then
          match popFirst (resolveName g0) st.prefixGroups with
          | some l => .ok ("", { st with prefixGroups := l })
          | none => .error ("group is not in the prefix pool: " ++ resolveName g0)
        else
          match popFirst (resolveName g0) st.suffixGroups with
          | some l => .ok ("", { st with suffixGroups := l })
          | none => .error ("group is not in the suffix pool: " ++ resolveName g0)
    | none => .error ("unsupported key format: " ++ key)

/-- Set-like accumulation of a mapping call (Python set.add on
Rule.MiniLanguage.map_calls, modelled as an insertion-ordered list). -/
def addCall (calls : List (String × List String)) (mc : String × List String) :
    List (String × List String) :=
  if mc ∈ calls then calls else calls ++ [mc]

/-- Model of Rule.MiniLanguage.get_field.  A field matching MAP_CALL with
a declared mapping name records the call and emits the field back,
surrounded by braces, to be resolved at apply time; an undeclared mapping
name is a construction error.  Fields with attribute or index accesses
outside the map-call form fail (the string values returned by get_value
support none of the accesses such a field would perform); any other field
is resolved by get_value. -/
def getField (maps : Maps) (st : MLState) (f : String) :
    Except String (String × MLState) :=
  match parseMapCall f with
  | some (mapName, gs) =>
    if (maps.lookup mapName).isSome then
      .ok ("\x7b" ++ f ++ "\x7d", { st with mapCalls := addCall st.mapCalls (mapName, gs) })
    else .error ("mapping " ++ mapName ++ " is used but not declared")
  | none =>
    if '[' ∈ f.data ∨ '.' ∈ f.data then
      .error ("unsupported field access: " ++ f)
    else getValue st f

/-- One left-to-right pass of string.Formatter.vformat over the parsed
tokens, threading the mini-language state. -/
def processTokens (maps : Maps) (st : MLState) : List Tok → Except String (String × MLState)
  | [] => .ok ("", st)
  | .lit s :: ts =>
    match processTokens maps st ts with
    | .ok (out, st1) => .ok (s ++ out, st1)
    | .error e => .error e
  | .field f :: ts =>
    match getField maps st f with
    | .ok (v, st1) =>
      match processTokens maps st1 ts with
      | .ok (out, st2) => .ok (v ++ out, st2)
      | .error e => .error e
    | .error e => .error e

/-- Backreference emissions for a list of group names, as written by
Rule.MiniLanguage.format for the leftover pools. -/
def groupRefs (gs : List String) : String :=
  String.join (gs.map (fun g => "\\g<" ++ g ++ ">"))

/-- Model of Rule.MiniLanguage.format: run the formatter over the tokens,
then join the emissions for the still-remaining prefix groups, the
formatted body and the emissions for the still-remaining suffix groups, in
that order (the Python method returns prefix ++ result ++ suffix). -/
def MLformat (maps : Maps) (prefixGroups suffixGroups : List String)
    (toks : List Tok) : Except String (String × MLState) :=
  match processTokens maps ⟨prefixGroups, suffixGroups, false, []⟩ toks with
  | .ok (result, st) =>
    .ok (groupRefs st.prefixGroups ++ result ++ groupRefs st.suffixGroups, st)
  | .error e => .error e

/-- Index of the first ')' in the list, provided no newline comes before
it: this is how far the non-greedy fragment .*?\) of _to_jq.GROUP reaches
('.' does not match a newline). -/
def firstCloseParen : List Char → Option Nat
  | [] => none
  | c :: rest =>
    if c = ')' then some 0
    else if c = '\n' then none
    else (firstCloseParen rest).map (· + 1)

/-- Attempt to match the backreference syntax (?P=name) at the head of
the list: on success, the name and the remainder after the closing
parenthesis. -/
def brHeader : List Char → Option (String × List Char)
  | '(' :: '?' :: 'P' :: '=' :: r2 =>
    let w := r2.takeWhile isWordChar
    if w.isEmpty then none
    else
      match r2.drop w.length with
      | ')' :: after => some (String.mk w, after)
      | _ => none
  | _ => none

/-- Attempt to match the group-definition syntax (?P<name>pattern) at the
head of the list, the pattern part being the shortest newline-free run up
to a ')': on success, the name, the index of that ')' after the '>' and
the remainder after it. -/
def grHeader : List Char → Option (String × Nat × List Char)
  | '(' :: '?' :: 'P' :: '<' :: r2 =>
    let w := r2.takeWhile isWordChar
    if w.isEmpty then none
    else
      match r2.drop w.length with
      | '>' :: r3 =>
        match firstCloseParen r3 with
        | some k => some (String.mk w, k, r3.drop (k + 1))
        | none => none
      | _ => none
  | _ => none

/-- Scanner for _to_jq.BACKREF.finditer: every non-overlapping occurrence
of (?P=name), reported as (offset of the name, name), scanning left to
right and resuming after each match, with p the absolute offset of the
current list head.  Fuel-based structural recursion; callers pass more
fuel than characters. -/
def scanBackrefsF : Nat → List Char → Nat → List (Nat × String)
  | 0, _, _ => []
  | _ + 1, [], _ => []
  | fuel + 1, c :: rest, p =>
    match brHeader (c :: rest) with
    | some (w, after) => (p + 4, w) :: scanBackrefsF fuel after (p + 5 + w.length)
    | none => scanBackrefsF fuel rest (p + 1)

/-- Scanner for _to_jq.GROUP.finditer: every non-overlapping occurrence of
(?P<name>pattern); scanning resumes after the ')' that closed the
match. -/
def scanGroupsF : Nat → List Char → Nat → List (Nat × String)
  | 0, _, _ => []
  | _ + 1, [], _ => []
  | fuel + 1, c :: rest, p =>
    match grHeader (c :: rest) with
    | some (w, k, after) => (p + 4, w) :: scanGroupsF fuel after (p + 6 + w.length + k)
    | none => scanGroupsF fuel rest (p + 1)

/-- Backreference occurrences of a sub-pattern string. -/
def scanBackrefs (s : String) : List (Nat × String) :=
  scanBackrefsF (s.data.length + 1) s.data 0

/-- Group-definition occurrences of a sub-pattern string. -/
def scanGroups (s : String) : List (Nat × String) :=
  scanGroupsF (s.data.length + 1) s.data 0

/-- Assignment into the offset-keyed association list, replacing any
existing entry with the same offset (Python dict assignment). -/
def insertKeyed (l : List (Nat × String)) (kv : Nat × String) : List (Nat × String) :=
  if l.any (fun x => x.1 = kv.1) then l.map (fun x => if x.1 = kv.1 then kv else x)
  else l ++ [kv]

/-- Insert into a list sorted by offset (stable insertion sort step). -/
def insSorted (x : Nat × String) : List (Nat × String) → List (Nat × String)
  | [] => [x]
  | y :: ys => if x.1 ≤ y.1 then x :: y :: ys else y :: insSorted x ys

/-- Stable sort by offset, modelling Python's sorted over the dict keys. -/
def sortByKey (l : List (Nat × String)) : List (Nat × String) := l.foldr insSorted []

/-- Model of Rule.get_groups: record backreference occurrences, then
group-definition occurrences, in a dict keyed by the offset of the name,
then list the names by ascending offset. -/
def getGroups (s : String) : List String :=
  let occs := scanBackrefs s ++ scanGroups s
  let merged := occs.foldl insertKeyed []
  (sortByKey merged).map Prod.snd

/-- Modelled from the Ezre interface pinned by the doctests of phorulib:
Ezre(s).group(name) renders as the named-group wrapper around the raw
fragment, and Ezre concatenation is plain string concatenation. -/
def ezreGroup (name s : String) : String := "(?P<" ++ name ++ ">" ++ s ++ ")"

/-- Model of Rule.get_pattern: wrap prefix (resp. suffix, source) in the
canonical group exactly when its group inventory is empty, then
concatenate prefix ++ source ++ suffix. -/
def getPatternStr (prefixPat source suffixPat : String) : String :=
  let pp := if getGroups prefixPat = [] then ezreGroup "prefix" prefixPat else prefixPat
  let sx := if getGroups suffixPat = [] then ezreGroup "suffix" suffixPat else suffixPat
  let sp := if getGroups source = [] then ezreGroup "source" source else source
  pp ++ sp ++ sx

/-- Model of Rule.get_replacement: default the pools to the canonical
group names when the context has no inventoried groups, then run the
mini-language formatter over the target tokens, returning the compiled
replacement and the collected mapping calls. -/
def getReplacement (maps : Maps) (prefixPat suffixPat : String)
    (target : List Tok) : Except String (String × List (String × List String)) :=
  let pgs := if getGroups prefixPat = [] then ["prefix"] else getGroups prefixPat
  let sgs := if getGroups suffixPat = [] then ["suffix"] else getGroups suffixPat
  match MLformat maps pgs sgs target with
  | .ok (repl, st) => .ok (repl, st.mapCalls)
  | .error e => .error e

/-- A compiled rule: the assembled pattern string, the compiled
replacement, the collected mapping calls, the declared mapping tables and
the count / flags options, mirroring the attributes of the Python Rule. -/
structure Rule where
  patternStr : String
  replacement : String
  mapCalls : List (String × List String)
  maps : Maps
  count : Nat
  flags : Nat
deriving DecidableEq

/-- Model of Rule.__init__: absent prefix and suffix default to the empty
pattern; the replacement is compiled first (failures there are the
construction-time CompileErrors), then the pattern is assembled. -/
def mkRule (source : String) (target : List Tok)
    (suffixPat prefixPat : Option String) (count flags : Nat)
    (maps : Maps) : Except String Rule :=
  let sfx := suffixPat.getD ""
  let pfx := prefixPat.getD ""
  match getReplacement maps pfx sfx target with
  | .ok (repl, calls) =>
    .ok ⟨getPatternStr pfx source sfx, repl, calls, maps, count, flags⟩
  | .error e => .error e

/-- Whether an Except value is a success. -/
def isOkE {ε α : Type} : Except ε α → Bool
  | .ok _ => true
  | .error _ => false

/-- Variant of grHeader for the jq conversion: additionally returns the
pattern part (the shortest newline-free run before the closing
parenthesis), as _to_jq.GROUP.sub needs it for the rewritten group. -/
def grHeaderPat : List Char → Option (String × List Char × List Char)
  | '(' :: '?' :: 'P' :: '<' :: r2 =>
    let w := r2.takeWhile isWordChar
    if w.isEmpty then none
    else
      match r2.drop w.length with
      | '>' :: r3 =>
        match firstCloseParen r3 with
        | some k => some (String.mk w, r3.take k, r3.drop (k + 1))
        | none => none
      | _ => none
  | _ => none

/-- Header for _to_jq.REPLREF: a replacement group reference of the form
backslash-g<name>. -/
def replrefHeader : List Char → Option (String × List Char)
  | '\\' :: 'g' :: '<' :: r2 =>
    let w := r2.takeWhile isWordChar
    if w.isEmpty then none
    else
      match r2.drop w.length with
      | '>' :: after => some (String.mk w, after)
      | _ => none
  | _ => none

/-- Header for _to_jq.MAP_CALL: a braced mapping call
\x7bname[g1,...,gk]\x7d, closing brace included. -/
def jqMapCallHeader : List Char → Option (String × List String × List Char)
  | '\x7b' :: r =>
    let name := r.takeWhile isWordChar
    if name.isEmpty then none else
    match r.drop name.length with
    | '[' :: rest =>
      let w := rest.takeWhile isWordChar
      if w.isEmpty then none else
      let (ws, rr) := parseGroupsRest (rest.length + 1) (rest.drop w.length)
      match rr with
      | ']' :: '\x7d' :: after => some (String.mk name, String.mk w :: ws, after)
      | _ => none
    | _ => none
  | _ => none

/-- _to_jq.GROUP.sub: rewrite every (?P<name>pattern) group into the
external (?<name>pattern) dialect, scanning left to right over
non-overlapping matches. -/
def convGroupsF : Nat → List Char → List Char
  | 0, l => l
  | _ + 1, [] => []
  | fuel + 1, c :: rest =>
    match grHeaderPat (c :: rest) with
    | some (w, pat, after) =>
      '(' :: '?' :: '<' :: (w.data ++ '>' :: (pat ++ ')' :: convGroupsF fuel after))
    | none => c :: convGroupsF fuel rest

/-- _to_jq.BACKREF.sub: rewrite every (?P=name) backreference into the
external form with a doubled backslash before k<name>. -/
def convBackrefsF : Nat → List Char → List Char
  | 0, l => l
  | _ + 1, [] => []
  | fuel + 1, c :: rest =>
    match brHeader (c :: rest) with
    | some (w, after) =>
      '\\' :: '\\' :: 'k' :: '<' :: (w.data ++ '>' :: convBackrefsF fuel after)
    | none => c :: convBackrefsF fuel rest

/-- _to_jq.REPLREF.sub: rewrite every backslash-g<name> replacement
reference into the external interpolation form backslash-(.name). -/
def convReplrefsF : Nat → List Char → List Char
  | 0, l => l
  | _ + 1, [] => []
  | fuel + 1, c :: rest =>
    match replrefHeader (c :: rest) with
    | some (w, after) =>
      '\\' :: '(' :: '.' :: (w.data ++ ')' :: convReplrefsF fuel after)
    | none => c :: convReplrefsF fuel rest

/-- _to_jq.MAP_CALL.sub with _to_jq.replace_map_call: rewrite every braced
mapping call into the chained field-access lookup on the bound variable
named after the mapping. -/
def convMapCallsF : Nat → List Char → List Char
  | 0, l => l
  | _ + 1, [] => []
  | fuel + 1, c :: rest =>
    match jqMapCallHeader (c :: rest) with
    | some (m, gs, after) =>
      '\\' :: '(' :: '$' :: (m.data
        ++ (gs.flatMap (fun g => '[' :: '.' :: (g.data ++ [']'])))
        ++ ')' :: convMapCallsF fuel after)
    | none => c :: convMapCallsF fuel rest

def convGroups (s : String) : String := String.mk (convGroupsF (s.data.length + 1) s.data)

def convBackrefs (s : String) : String := String.mk (convBackrefsF (s.data.length + 1) s.data)

def convReplrefs (s : String) : String := String.mk (convReplrefsF (s.data.length + 1) s.data)

def convMapCalls (s : String) : String := String.mk (convMapCallsF (s.data.length + 1) s.data)

mutual
/-- JSON-serializable tree of nested string-keyed objects with string
leaves, the target of _to_jq.normalize_mapping. -/
inductive JTree where
  | leaf (s : String)
  | node (l : JObj)
deriving DecidableEq

/-- A JSON object as an insertion-ordered association list. -/
inductive JObj where
  | nil
  | cons (k : String) (v : JTree) (rest : JObj)
deriving DecidableEq
end

/-- Assignment into a JSON object, replacing in place or appending
(Python dict assignment order). -/
def JObj.set : JObj → String → JTree → JObj
  | .nil, k, v => .cons k v .nil
  | .cons k0 v0 rest, k, v =>
    if k0 = k then .cons k0 v rest else .cons k0 v0 (rest.set k v)

/-- Lookup in a JSON object. -/
def JObj.find : JObj → String → Option JTree
  | .nil, _ => none
  | .cons k0 v0 rest, k => if k0 = k then some v0 else rest.find k

/-- The iteration components of a mapping key in normalize_mapping: a bare
string key is unpacked character by character (Python tuple unpacking
iterates the string), a tuple key element by element. -/
def keyParts : MKey → List String
  | .str s => s.data.map (fun c => String.mk [c])
  | .tup l => l

/-- One item insertion of normalize_mapping: walk the leading sub-keys
with setdefault semantics and assign at the last one.  An empty key fails
(tuple unpacking needs at least one element) and so does meeting a string
where a sub-dictionary is needed. -/
def insertPath : JObj → List String → String → Except String JObj
  | _, [], _ => .error "ValueError: not enough values to unpack"
  | d, [last], v => .ok (d.set last (.leaf v))
  | d, k :: rest, v =>
    match d.find k with
    | some (.node sub) =>
      match insertPath sub rest v with
      | .ok sub2 => .ok (d.set k (.node sub2))
      | .error e => .error e
    | some (.leaf _) => .error "TypeError: string where a dict is needed"
    | none =>
      match insertPath .nil rest v with
      | .ok sub2 => .ok (d.set k (.node sub2))
      | .error e => .error e

/-- _to_jq.normalize_mapping: fold every mapping item into the nested
object. -/
def normalizeMapping (m : UserMapping) : Except String JObj :=
  go m .nil
where
  go : List (MKey × String) → JObj → Except String JObj
  | [], acc => .ok acc
  | (k, v) :: rest, acc =>
    match insertPath acc (keyParts k) v with
    | .ok acc2 => go rest acc2
    | .error e => .error e

/-- One hexadecimal digit, lowercase, as json.dumps writes them. -/
def hexDigit (n : Nat) : Char :=
  if n < 10 then Char.ofNat (48 + n) else Char.ofNat (87 + n)

/-- json.dumps string escaping with ensure_ascii: short escapes for the
quote, the backslash and the common control characters, and unicode
escapes (with surrogate pairs beyond the basic plane) for every other
control or non-ASCII character. -/
def jsonEscapeChar (c : Char) : List Char :=
  if c = '"' then ['\\', '"']
  else if c = '\\' then ['\\', '\\']
  else if c = '\n' then ['\\', 'n']
  else if c = '\t' then ['\\', 't']
  else if c = '\r' then ['\\', 'r']
  else if c.val.toNat = 8 then ['\\', 'b']
  else if c.val.toNat = 12 then ['\\', 'f']
  else if 32 ≤ c.val.toNat ∧ c.val.toNat < 127 then [c]
  else if c.val.toNat < 65536 then
    let v := c.val.toNat
    ['\\', 'u', hexDigit (v / 4096 % 16), hexDigit (v / 256 % 16),
      hexDigit (v / 16 % 16), hexDigit (v % 16)]
  else
    let v := c.val.toNat - 65536
    let hi := 55296 + v / 1024
    let lo := 56320 + v % 1024
    ['\\', 'u', hexDigit (hi / 4096 % 16), hexDigit (hi / 256 % 16),
      hexDigit (hi / 16 % 16), hexDigit (hi % 16),
      '\\', 'u', hexDigit (lo / 4096 % 16), hexDigit (lo / 256 % 16),
      hexDigit (lo / 16 % 16), hexDigit (lo % 16)]

def jsonString (s : String) : String :=
  "\"" ++ String.mk (s.data.flatMap jsonEscapeChar) ++ "\""

mutual
/-- json.dumps over the normalized tree (default separators). -/
def jsonTree : JTree → String
  | .leaf s => jsonString s
  | .node o => "\x7b" ++ jsonItems o ++ "\x7d"

def jsonItems : JObj → String
  | .nil => ""
  | .cons k v .nil => jsonString k ++ ": " ++ jsonTree v
  | .cons k v rest => jsonString k ++ ": " ++ jsonTree v ++ ", " ++ jsonItems rest
end

/-- The variable-binding declarations of _to_jq.__new__: one per mapping
call, each serializing the called mapping's table (a missing table or a
table that does not normalize is an error, as in Python). -/
def buildDecls (maps : Maps) : List (String × List String) → Except String (List String)
  | [] => .ok []
  | (m, _) :: rest =>
    match maps.lookup m with
    | none => .error ("KeyError: " ++ m)
    | some table =>
      match normalizeMapping table with
      | .ok tree =>
        match buildDecls maps rest with
        | .ok rest2 => .ok ((jsonTree (.node tree) ++ " as $" ++ m) :: rest2)
        | .error e => .error e
      | .error e => .error e

/-- Model of _to_jq.__new__ (Rule.to_jq): refuse double quotes in the
pattern or replacement and non-default count or flags, then emit the
converted gsub expression, preceded by the mapping bindings when mapping
calls exist. -/
def toJq (r : Rule) : Except String String :=
  if '"' ∈ r.patternStr.data then .error "cannot escape regex"
  else if '"' ∈ r.replacement.data then .error "cannot escape replacement"
  else if r.flags ≠ 0 then .error "does not support Python re.flags"
  else if r.count ≠ 0 then .error "does not support count"
  else
    let regex := convBackrefs (convGroups r.patternStr)
    let repl := convMapCalls (convReplrefs r.replacement)
    if r.mapCalls = [] then
      .ok ("gsub(\"" ++ regex ++ "\"; \"" ++ repl ++ "\")")
    else
      match buildDecls r.maps r.mapCalls with
      | .ok decls =>
        .ok (String.intercalate " | " decls ++ " | gsub(\"" ++ regex ++ "\"; \"" ++ repl ++ "\")")
      | .error e => .error e

/-- Non-overlapping occurrence count of a pattern in a string, leftmost
first. -/
def countSubstrF : Nat → List Char → List Char → Nat
  | 0, _, _ => 0
  | _ + 1, [], _ => 0
  | fuel + 1, c :: rest, pat =>
    if pat.isPrefixOf (c :: rest) then
      1 + countSubstrF fuel ((c :: rest).drop pat.length) pat
    else
      countSubstrF fuel rest pat

def countSubstr (s pat : String) : Nat :=
  countSubstrF (s.data.length + 1) s.data pat.data

/-- Regex fragment AST for the application engine: empty fragment, literal
character, concatenation, alternation (left branch preferred, as in the
backtracking engine) and named capture group.  Plain parentheses only
group (numbered captures are never referenced by this program), and
constructs outside this fragment are not modelled. -/
inductive Rx where
  | eps
  | ch (c : Char)
  | seq (a b : Rx)
  | alt (a b : Rx)
  | grp (n : String) (r : Rx)
deriving DecidableEq

/-- Captures: most recent assignment first, as an association list from
group name to captured character run. -/
abbrev Caps := List (String × List Char)

/-- All matches of a fragment at the head of the input, in backtracking
priority order — the head of the list is the match Python's engine
commits to.  Each result is (consumed, rest, captures). -/
def Rx.matchList : Rx → List Char → Caps → List (List Char × List Char × Caps)
  | .eps, s, cap => [([], s, cap)]
  | .ch _, [], _ => []
  | .ch c, x :: xs, cap => if x = c then [([x], xs, cap)] else []
  | .seq a b, s, cap =>
    (a.matchList s cap).flatMap fun r1 =>
      (b.matchList r1.2.1 r1.2.2).map fun r2 => (r1.1 ++ r2.1, r2.2.1, r2.2.2)
  | .alt a b, s, cap => a.matchList s cap ++ b.matchList s cap
  | .grp n r, s, cap =>
    (r.matchList s cap).map fun r1 => (r1.1, r1.2.1, (n, r1.1) :: r1.2.2)

/-- The group names a fragment defines. -/
def Rx.names : Rx → List String
  | .eps => []
  | .ch _ => []
  | .seq a b => a.names ++ b.names
  | .alt a b => a.names ++ b.names
  | .grp n r => n :: r.names

/-- Latest capture of a group. -/
def lookupCaps (cap : Caps) (n : String) : Option (List Char) :=
  ((cap : List (String × List Char)).find? (fun e => e.1 = n)).map (fun e => e.2)

/-- Right-nested concatenation of a list of fragments. -/
def seqList : List Rx → Rx
  | [] => .eps
  | a :: rest => .seq a (seqList rest)

mutual
/-- Parser for the regex fragment the engine models, mirroring how the
Python engine reads the assembled pattern string: an alternation is a
'|'-separated list of sequences (alternation binds loosest, so wrapping
context around a pattern with a top-level '|' captures only its last
branch). -/
def parseAltF : Nat → List Char → Option (Rx × List Char)
  | 0, _ => none
  | fuel + 1, s =>
    match parseSeqF fuel s with
    | some (al, rest) =>
      match rest with
      | [] => some (seqList al, [])
      | c :: rest2 =>
        if c = '|' then
          match parseAltF fuel rest2 with
          | some (r2, rest3) => some (.alt (seqList al) r2, rest3)
          | none => none
        else some (seqList al, c :: rest2)
    | none => none

/-- A sequence: atoms until a delimiter, the end of the input, or a
construct outside the fragment. -/
def parseSeqF : Nat → List Char → Option (List Rx × List Char)
  | 0, _ => none
  | fuel + 1, s =>
    match s with
    | [] => some ([], [])
    | c :: _ =>
      if c = '|' ∨ c = ')' then some ([], s)
      else
        match parseAtomF fuel s with
        | some (a, rest) =>
          match parseSeqF fuel rest with
          | some (al, rest2) => some (a :: al, rest2)
          | none => none
        | none => none

/-- One atom: a named group, a plain parenthesized group (grouping only),
or a literal character without special meaning. -/
def parseAtomF : Nat → List Char → Option (Rx × List Char)
  | 0, _ => none
  | fuel + 1, s =>
    match s with
    | [] => none
    | c :: rest =>
      if c = '(' then
        match rest with
        | [] => none
        | c2 :: rest2 =>
          if c2 = '?' then
            match rest2 with
            | [] => none
            | c3 :: rest3 =>
              if c3 = 'P' then
                match rest3 with
                | [] => none
                | c4 :: rest4 =>
                  if c4 = '<' then
                    if (rest4.takeWhile isWordChar).isEmpty then none
                    else
                      match rest4.drop (rest4.takeWhile isWordChar).length with
                      | [] => none
                      | c5 :: r3 =>
                        if c5 = '>' then
                          match parseAltF fuel r3 with
                          | some (inner, restI) =>
                            match restI with
                            | [] => none
                            | c6 :: rest6 =>
                              if c6 = ')' then
                                some (.grp (String.mk (rest4.takeWhile isWordChar)) inner, rest6)
                              else none
                          | none => none
                        else none
                  else none
              else none
          else
            match parseAltF fuel (c2 :: rest2) with
            | some (inner, restI) =>
              match restI with
              | [] => none
              | c6 :: rest6 => if c6 = ')' then some (inner, rest6) else none
            | none => none
      else if c = '|' ∨ c = ')' ∨ c = '*' ∨ c = '+' ∨ c = '?' ∨ c = '[' ∨ c = ']'
          ∨ c = '\x7b' ∨ c = '\x7d' ∨ c = '^' ∨ c = '$' ∨ c = '.' ∨ c = '\\' then none
      else some (.ch c, rest)
end

/-- Fuel for the pattern parser: generous bound on the recursion depth of
a string's parse. -/
def pfuel (s : String) : Nat := 2 * s.data.length + 8

/-- Compile a pattern string into the engine fragment; none when the
pattern uses unmodelled constructs or does not consume the whole
string. -/
def compileRx (s : String) : Option Rx :=
  match parseAltF (pfuel s) s.data with
  | some (r, []) => some r
  | _ => none

/-- Apply-time failures: a mapping lookup failure carrying (only) the
offending key, a group unavailable to a mapping call, or a template
expansion failure. -/
inductive ApplyErr where
  | keyErr (k : MKey)
  | badGroup (g : String)
  | expandErr (msg : String)
deriving DecidableEq

/-- The leftmost match of a fragment: try the head of the input, else move
one character right, exactly like the engine's scan in re.sub.  Returns
(skipped characters, consumed, rest, captures). -/
def firstMatchF : Nat → Rx → List Char → Option (List Char × List Char × List Char × Caps)
  | 0, _, _ => none
  | fuel + 1, r, s =>
    (((r.matchList s []).head?).map (fun m => (([] : List Char), m.1, m.2.1, m.2.2))).orElse
      (fun _ =>
        match s with
        | [] => none
        | x :: xs => (firstMatchF fuel r xs).map (fun m => (x :: m.1, m.2.1, m.2.2.1, m.2.2.2)))

/-- The global-substitution loop of re.sub (Python 3.7 semantics): replace
each leftmost non-overlapping match, advancing one character after an
empty match, and stop after the requested number of replacements (none
standing for unbounded). -/
def gsubF (repl : Caps → Except ApplyErr (List Char)) (rx : Rx) :
    Nat → Option Nat → List Char → Except ApplyErr (List Char)
  | 0, _, s => .ok s
  | fuel + 1, cnt, s =>
    if cnt = some 0 then .ok s
    else
      match firstMatchF (s.length + 1) rx s with
      | none => .ok s
      | some (sk, c, rest, caps) =>
        match repl caps with
        | .error e => .error e
        | .ok rep =>
          match c with
          | [] =>
            match rest with
            | [] => .ok (sk ++ rep)
            | x :: xs =>
              match gsubF repl rx fuel (cnt.map (· - 1)) xs with
              | .ok out => .ok (sk ++ rep ++ x :: out)
              | .error e => .error e
          | _ =>
            match gsubF repl rx fuel (cnt.map (· - 1)) rest with
            | .ok out => .ok (sk ++ rep ++ out)
            | .error e => .error e

/-- Template expansion of a replacement string against a match's captures
(re.Match.expand, Python >= 3.5 semantics): backslash-g<name> inserts the
group's capture, or the empty string when the group is in the pattern but
did not participate in the match; a name the pattern does not define is an
error (sre's "unknown group name", modelled at substitution time); any
other escape is outside the modelled fragment, and every other character
is literal.  gnames lists the group names the compiled pattern defines. -/
def expandF (gnames : List String) : Nat → List Char → Caps → Except ApplyErr (List Char)
  | 0, _, _ => .ok []
  | _ + 1, [], _ => .ok []
  | fuel + 1, c :: rest, caps =>
    if c = '\\' then
      match rest with
      | c1 :: c2 :: r2 =>
        if c1 = 'g' ∧ c2 = '<' then
          if (r2.takeWhile isWordChar).isEmpty then
            .error (.expandErr "missing group name")
          else
            match r2.drop (r2.takeWhile isWordChar).length with
            | [] => .error (.expandErr "bad group reference")
            | c3 :: r3 =>
              if c3 = '>' then
                if String.mk (r2.takeWhile isWordChar) ∈ gnames then
                  match expandF gnames fuel r3 caps with
                  | .ok out =>
                    .ok ((lookupCaps caps (String.mk (r2.takeWhile isWordChar))).getD []
                      ++ out)
                  | .error e => .error e
                else .error (.expandErr "unknown group name")
              else .error (.expandErr "bad group reference")
        else .error (.expandErr "unsupported escape")
      | _ => .error (.expandErr "unsupported escape")
    else
      match expandF gnames fuel rest caps with
      | .ok out => .ok (c :: out)
      | .error e => .error e

/-- The mapping-call resolution of Rule.replacer: for each collected call,
read the captures of its argument groups, index the table by the bare
string for a single group and by the tuple for several, and fail with a
KeyError carrying the offending key when the table misses it. -/
def buildMapData (maps : Maps) (caps : Caps) :
    List (String × List String) → Except ApplyErr (List ((String × List String) × String))
  | [] => .ok []
  | (m, gs) :: rest =>
    match gs.mapM (lookupCaps caps) with
    | none => .error (.badGroup m)
    | some vs =>
      match maps.lookup m with
      | none => .error (.badGroup m)
      | some table =>
        match table.lookup (match vs with
          | [v] => MKey.str (String.mk v)
          | _ => MKey.tup (vs.map String.mk)) with
        | some v =>
          match buildMapData maps caps rest with
          | .ok rest2 => .ok (((m, gs), v) :: rest2)
          | .error e => .error e
        | none => .error (.keyErr (match vs with
          | [v] => MKey.str (String.mk v)
          | _ => MKey.tup (vs.map String.mk)))

/-- The final str.format pass of Rule.replacer: fill each braced mapping
call from the resolved data, unescape doubled braces, and leave every
other character untouched. -/
def formatDataF (data : List ((String × List String) × String)) :
    Nat → List Char → Except ApplyErr (List Char)
  | 0, _ => .ok []
  | _ + 1, [] => .ok []
  | fuel + 1, '\x7b' :: rest =>
    match rest with
    | '\x7b' :: r2 =>
      match formatDataF data fuel r2 with
      | .ok out => .ok ('\x7b' :: out)
      | .error e => .error e
    | _ =>
      match jqMapCallHeader ('\x7b' :: rest) with
      | some (m, gs, after) =>
        match data.lookup (m, gs) with
        | some v =>
          match formatDataF data fuel after with
          | .ok out => .ok (v.data ++ out)
          | .error e => .error e
        | none => .error (.expandErr "format key")
      | none => .error (.expandErr "bad format field")
  | fuel + 1, '\x7d' :: rest =>
    match rest with
    | '\x7d' :: r2 =>
      match formatDataF data fuel r2 with
      | .ok out => .ok ('\x7d' :: out)
      | .error e => .error e
    | _ => .error (.expandErr "single closing brace")
  | fuel + 1, c :: rest =>
    match formatDataF data fuel rest with
    | .ok out => .ok (c :: out)
    | .error e => .error e

/-- Model of Rule.__call__ over the engine fragment: compile the assembled
pattern, then run the global substitution; without mapping calls the
replacement template is expanded directly (the fast path), otherwise each
match resolves its mapping calls and fills them into the expanded
template.  Only default flags are modelled. -/
def applyRule (r : Rule) (s : String) : Except ApplyErr String :=
  match compileRx r.patternStr with
  | none => .error (.expandErr "pattern outside the modelled fragment")
  | some rx =>
    if r.flags ≠ 0 then .error (.expandErr "flags not modelled")
    else
      let replFn : Caps → Except ApplyErr (List Char) :=
        if r.mapCalls = [] then
          fun caps => expandF rx.names (r.replacement.data.length + 1) r.replacement.data caps
        else
          fun caps =>
            match buildMapData r.maps caps r.mapCalls with
            | .error e => .error e
            | .ok data =>
              match expandF rx.names (r.replacement.data.length + 1) r.replacement.data caps with
              | .error e => .error e
              | .ok e1 => formatDataF data (e1.length + 1) e1
      match gsubF replFn rx (s.data.length + 1)
          (if r.count = 0 then none else some r.count) s.data with
      | .ok out => .ok (String.mk out)
      | .error e => .error e

/-- Spec-side definition, from the claim's words: a plain global
find-and-replace of every non-overlapping, leftmost match of the source
pattern by the target text. -/
def findReplace (source T s : String) : Except ApplyErr String :=
  match compileRx source with
  | none => .error (.expandErr "pattern outside the modelled fragment")
  | some rx =>
    match gsubF (fun _ => .ok T.data) rx (s.data.length + 1) none s.data with
    | .ok out => .ok (String.mk out)
    | .error e => .error e

/-- The engine-independent part of a match result: consumed text and
remaining input (captures stripped). -/
def stripRes (x : List Char × List Char × Caps) : List Char × List Char := (x.1, x.2.1)

/-- Whether every group named n in the fragment has an empty body, so that
its captures are always the empty string. -/
def epsOnly (n : String) : Rx → Bool
  | .eps => true
  | .ch _ => true
  | .seq a b => epsOnly n a && epsOnly n b
  | .alt a b => epsOnly n a && epsOnly n b
  | .grp m r => (if m = n then r == .eps else true) && epsOnly n r

/-- The compiled form of the rule source="aa", target="cde" (the repo's
first doctest), used to instantiate the jq-translation theorem. -/
def jqDemoRule : Rule :=
  ⟨"(?P<prefix>)(?P<source>aa)(?P<suffix>)", "\\g<prefix>cde\\g<suffix>", [], [], 0, 0⟩

/-- The group names a sub-pattern defines (definition occurrences only),
the notion the specification's wrap condition speaks about. -/
def definedGroups (s : String) : List String := (scanGroups s).map Prod.snd

/-- The group names a sub-pattern backreferences. -/
def backrefGroups (s : String) : List String := (scanBackrefs s).map Prod.snd

/-- A field that consumes the source position when processed: the bare
source key, or a GROUP_REF with a non-'+' sign resolving to the source
(map-call fields are routed away before get_value and never consume). -/
def isSourceConsume (f : String) : Bool :=
  (parseMapCall f).isNone &&
    (f == "_" ||
      (match parseGroupRef f with
       | some (sign, g0) => sign != "+" && (g0 == "_" || g0 == "source")
       | none => false))

/-- A field that drops the named group g (g distinct from the canonical
source group): a GROUP_REF with a non-'+' sign resolving to g. -/
def isDropOf (g f : String) : Bool :=
  (parseMapCall f).isNone && g != "source" &&
    (match parseGroupRef f with
     | some (sign, g0) => sign != "+" && (resolveName g0 == g)
     | none => false)

example : getGroups "(?P<prefix>)(?P<source>aa)(?P<suffix>)" = ["prefix", "source", "suffix"] := by
  decide

example : getPatternStr "" "aa" "" = "(?P<prefix>)(?P<source>aa)(?P<suffix>)" := by decide

example :
    (mkRule "aa" [Tok.lit "cde"] none none 0 0 []).map Rule.replacement
      = .ok "\\g<prefix>cde\\g<suffix>" := rfl

example :
    (mkRule "(a|e)" [Tok.field "-prefix", Tok.field "_", Tok.field "+prefix"]
        (some "(k|p)") (some "(r|l)") 0 0 []).map Rule.replacement
      = .ok "\\g<source>\\g<prefix>\\g<suffix>" := rfl

example :
    (mkRule "(a|e)" [Tok.field "+rhotic", Tok.field "_", Tok.field "-rhotic"]
        (some "(?P<rhotic>(r|l))(?P<consonant>(k|p))") none 0 0 []).map Rule.replacement
      = .ok "\\g<prefix>\\g<rhotic>\\g<source>\\g<consonant>" := rfl

example : getGroups "(?P<vowel>(a|e))(?P<consonant>(k|p))(?P=vowel)"
      = ["vowel", "consonant", "vowel"] := by decide

example :
    (mkRule "aa" [Tok.lit "cde"] none none 0 0 []).bind toJq
      = .ok "gsub(\"(?<prefix>)(?<source>aa)(?<suffix>)\"; \"\\(.prefix)cde\\(.suffix)\")" := rfl

example :
    (mkRule "(?P<vowel>(a|e))(?P<consonant>(k|p))(?P=vowel)"
        [Tok.lit "o", Tok.field "+consonant", Tok.lit "o", Tok.field "-_"]
        none none 0 0 []).bind toJq
      = .ok "gsub(\"(?<prefix>)(?<vowel>(a|e))(?<consonant>(k|p))\\\\k<vowel>(?<suffix>)\"; \"\\(.prefix)o\\(.consonant)o\\(.suffix)\")" := rfl

example :
    (mkRule "(p|t|k)" [Tok.field "-_", Tok.field "voiced[source]"]
        none (some "^") 0 0
        [("voiced", [(MKey.str "p", "b"), (MKey.str "t", "d"), (MKey.str "k", "g")])]).bind toJq
      = .ok "\x7b\"p\": \"b\", \"t\": \"d\", \"k\": \"g\"\x7d as $voiced | gsub(\"(?<prefix>^)(?<source>(p|t|k))(?<suffix>)\"; \"\\(.prefix)\\($voiced[.source])\\(.suffix)\")" := rfl

set_option maxRecDepth 8000 in
example :
    (mkRule "(a|e|u)" [Tok.field "-_", Tok.field "harmony[vowel,source]"]
        none (some "(?P<vowel>(a|e|u))(?P<consonant>(k|p))") 0 0
        [("harmony",
          [(MKey.tup ["a", "a"], "a"), (MKey.tup ["a", "e"], "a"), (MKey.tup ["a", "u"], "ɯ"),
           (MKey.tup ["e", "a"], "e"), (MKey.tup ["e", "e"], "e"), (MKey.tup ["e", "u"], "i"),
           (MKey.tup ["u", "a"], "a"), (MKey.tup ["u", "e"], "a"), (MKey.tup ["u", "u"], "u")])]).bind
      toJq
      = .ok "\x7b\"a\": \x7b\"a\": \"a\", \"e\": \"a\", \"u\": \"\\u026f\"\x7d, \"e\": \x7b\"a\": \"e\", \"e\": \"e\", \"u\": \"i\"\x7d, \"u\": \x7b\"a\": \"a\", \"e\": \"a\", \"u\": \"u\"\x7d\x7d as $harmony | gsub(\"(?<vowel>(a|e|u))(?<consonant>(k|p))(?<source>(a|e|u))(?<suffix>)\"; \"\\(.vowel)\\(.consonant)\\($harmony[.vowel][.source])\\(.suffix)\")" := rfl

theorem popFirst_sublist {g : String} : ∀ {l l' : List String},
    popFirst g l = some l' → l'.Sublist l := by
  intro l
  induction l with
  | nil => intro l' h; simp [popFirst] at h
  | cons x xs ih =>
    intro l' h
    simp only [popFirst] at h
    by_cases hx : x = g
    · simp [hx] at h
      subst h
      exact List.sublist_cons_self x xs
    · simp [hx] at h
      obtain ⟨t, ht, rfl⟩ := h
      exact List.Sublist.cons₂ x (ih ht)

theorem popFirst_none_of_not_mem {g : String} : ∀ {l : List String},
    g ∉ l → popFirst g l = none := by
  intro l
  induction l with
  | nil => intro _; rfl
  | cons x xs ih =>
    intro h
    simp only [List.mem_cons, not_or] at h
    have hx : ¬ x = g := fun he => h.1 he.symm
    simp [popFirst, hx, ih h.2]

theorem popFirst_not_mem_of_nodup {g : String} : ∀ {l l' : List String},
    l.Nodup → popFirst g l = some l' → g ∉ l' := by
  intro l
  induction l with
  | nil => intro l' _ h; simp [popFirst] at h
  | cons x xs ih =>
    intro l' hnd h
    simp only [popFirst] at h
    by_cases hx : x = g
    · simp [hx] at h
      subst h
      subst hx
      exact (List.nodup_cons.mp hnd).1
    · simp [hx] at h
      obtain ⟨t, ht, rfl⟩ := h
      have hgt := ih (List.nodup_cons.mp hnd).2 ht
      have hgx : ¬ g = x := fun he => hx he.symm
      simp [List.mem_cons, hgt, hgx]

theorem isSourceConsume_eq_of_groupRef {f sign g0 : String}
    (hmc : parseMapCall f = none) (hu : ¬ f = "_")
    (hgr : parseGroupRef f = some (sign, g0)) :
    isSourceConsume f = (sign != "+" && (g0 == "_" || g0 == "source")) := by
  unfold isSourceConsume
  rw [hmc, hgr]
  simp only [Option.isNone_none, Bool.true_and]
  have : (f == "_") = false := by
    simp only [beq_eq_false_iff_ne, ne_eq]
    exact hu
  rw [this]
  simp

/-- Master step lemma for get_field successes: the pools can only shrink
(as sublists), a source-consuming field flips the seen flag from false to
true, and a non-consuming field leaves it unchanged. -/
theorem getField_step {maps : Maps} {st st1 : MLState} {f v : String}
    (h : getField maps st f = .ok (v, st1)) :
    st1.prefixGroups.Sublist st.prefixGroups ∧
    st1.suffixGroups.Sublist st.suffixGroups ∧
    (isSourceConsume f = true → st.sourceSeen = false ∧ st1.sourceSeen = true) ∧
    (isSourceConsume f = false → st1.sourceSeen = st.sourceSeen) := by
  unfold getField at h
  rcases hmc : parseMapCall f with _ | ⟨m, gs⟩ <;> rw [hmc] at h <;> dsimp only at h
  -- map-call fields: state apart from mapCalls unchanged, never consuming
  case some =>
    have hcons : isSourceConsume f = false := by
      unfold isSourceConsume
      rw [hmc]
      rfl
    by_cases hd : (maps.lookup m).isSome
    · rw [if_pos hd] at h
      have hst : ("\x7b" ++ f ++ "\x7d", { st with mapCalls := addCall st.mapCalls (m, gs) }) = (v, st1) := by
        exact Except.ok.inj h
      rw [← (Prod.mk.injEq _ _ _ _ |>.mp hst).2]
      refine ⟨List.Sublist.refl _, List.Sublist.refl _, ?_, ?_⟩
      · intro hc
        rw [hcons] at hc
        exact absurd hc (by simp)
      · intro _
        rfl
    · rw [if_neg hd] at h
      exact absurd h (by simp)
  case none =>
    by_cases hacc : '[' ∈ f.data ∨ '.' ∈ f.data
    · rw [if_pos hacc] at h
      exact absurd h (by simp)
    · rw [if_neg hacc] at h
      unfold getValue at h
      by_cases hu : f = "_"
      · -- the bare source key, consuming
        rw [if_pos hu] at h
        have hcons : isSourceConsume f = true := by
          unfold isSourceConsume
          rw [hmc, hu]
          rfl
        by_cases hs : st.sourceSeen
        · rw [hs] at h
          exact absurd h (by simp)
        · have hs0 : st.sourceSeen = false := by
            exact Bool.not_eq_true _ |>.mp hs
          rw [hs0] at h
          simp only [Bool.not_false, if_pos] at h
          have hst := Except.ok.inj h
          rw [← (Prod.mk.injEq _ _ _ _ |>.mp hst).2]
          refine ⟨List.Sublist.refl _, List.Sublist.refl _, ?_, ?_⟩
          · intro _
            exact ⟨hs0, rfl⟩
          · intro hc
            rw [hcons] at hc
            exact absurd hc (by simp)
      · rw [if_neg hu] at h
        rcases hgr : parseGroupRef f with _ | ⟨sign, g0⟩ <;> rw [hgr] at h <;> dsimp only at h
        · exact absurd h (by simp)
        ·
          have hcs := isSourceConsume_eq_of_groupRef hmc hu hgr
          by_cases hplus : sign = "+"
          · -- '+' reference: state untouched, not consuming
            rw [if_pos hplus] at h
            have hst := Except.ok.inj h
            rw [← (Prod.mk.injEq _ _ _ _ |>.mp hst).2]
            have hcons : isSourceConsume f = false := by
              rw [hcs, hplus]
              simp
            refine ⟨List.Sublist.refl _, List.Sublist.refl _, ?_, ?_⟩
            · intro hc
              rw [hcons] at hc
              exact absurd hc (by simp)
            · intro _
              rfl
          · rw [if_neg hplus] at h
            by_cases hsrc : resolveName g0 = "source"
            · -- source drop: consuming
              rw [if_pos hsrc] at h
              have hcons : isSourceConsume f = true := by
                rw [hcs]
                have h1 : (sign != "+") = true := by
                  simp only [bne_iff_ne, ne_eq]
                  exact hplus
                have h2 : (g0 == "_" || g0 == "source") = true := by
                  unfold resolveName at hsrc
                  by_cases h0 : g0 = "_" <;> simp [h0] at hsrc ⊢
                  exact hsrc
                rw [h1, h2]
                rfl
              by_cases hs : st.sourceSeen
              · rw [hs] at h
                exact absurd h (by simp)
              · have hs0 : st.sourceSeen = false := Bool.not_eq_true _ |>.mp hs
                rw [hs0] at h
                simp only [Bool.not_false, if_pos] at h
                have hst := Except.ok.inj h
                rw [← (Prod.mk.injEq _ _ _ _ |>.mp hst).2]
                refine ⟨List.Sublist.refl _, List.Sublist.refl _, ?_, ?_⟩
                · intro _
                  exact ⟨hs0, rfl⟩
                · intro hc
                  rw [hcons] at hc
                  exact absurd hc (by simp)
            · -- pool drop: not consuming, pops from the active pool
              rw [if_neg hsrc] at h
              have hcons : isSourceConsume f = false := by
                rw [hcs]
                have h2 : (g0 == "_" || g0 == "source") = false := by
                  unfold resolveName at hsrc
                  by_cases h0 : g0 = "_" <;> simp [h0] at hsrc ⊢
                  · exact hsrc
                simp [h2]
              by_cases hs : st.sourceSeen
              · rw [hs] at h
                simp only [Bool.not_true, Bool.false_eq_true, if_false] at h
                rcases hp : popFirst (resolveName g0) st.suffixGroups with _ | l <;> rw [hp] at h
                · exact absurd h (by simp)
                · have hst := Except.ok.inj h
                  rw [← (Prod.mk.injEq _ _ _ _ |>.mp hst).2]
                  refine ⟨List.Sublist.refl _, popFirst_sublist hp, ?_, ?_⟩
                  · intro hc
                    rw [hcons] at hc
                    exact absurd hc (by simp)
                  · intro _
                    simp [hs]
              · have hs0 : st.sourceSeen = false := Bool.not_eq_true _ |>.mp hs
                rw [hs0] at h
                simp only [Bool.not_false, if_pos] at h
                rcases hp : popFirst (resolveName g0) st.prefixGroups with _ | l <;> rw [hp] at h
                · exact absurd h (by simp)
                · have hst := Except.ok.inj h
                  rw [← (Prod.mk.injEq _ _ _ _ |>.mp hst).2]
                  refine ⟨popFirst_sublist hp, List.Sublist.refl _, ?_, ?_⟩
                  · intro hc
                    rw [hcons] at hc
                    exact absurd hc (by simp)
                  · intro _
                    simp [hs0]

/-- Success of get_field on a group-dropping field removes the dropped
name from the pool selected by the source-seen flag and leaves the flag
and the other pool untouched. -/
theorem getField_drop {maps : Maps} {st st1 : MLState} {f v g : String}
    (h : getField maps st f = .ok (v, st1)) (hd : isDropOf g f = true) :
    st1.sourceSeen = st.sourceSeen ∧
    ((st.sourceSeen = false ∧ popFirst g st.prefixGroups = some st1.prefixGroups ∧
        st1.suffixGroups = st.suffixGroups) ∨
      (st.sourceSeen = true ∧ popFirst g st.suffixGroups = some st1.suffixGroups ∧
        st1.prefixGroups = st.prefixGroups)) := by
  unfold isDropOf at hd
  unfold getField at h
  rcases hmc : parseMapCall f with _ | ⟨m, gs⟩ <;> rw [hmc] at h <;> dsimp only at h
  case some => rw [hmc] at hd; simp at hd
  case none =>
    rw [hmc] at hd
    simp only [Option.isNone_none, Bool.true_and, Bool.and_eq_true, bne_iff_ne, ne_eq] at hd
    by_cases hacc : '[' ∈ f.data ∨ '.' ∈ f.data
    · rw [if_pos hacc] at h
      exact absurd h (by simp)
    · rw [if_neg hacc] at h
      unfold getValue at h
      by_cases hu : f = "_"
      · exfalso
        subst hu
        have h1 : parseGroupRef "_" = some ("", "_") := rfl
        rw [h1] at hd
        dsimp only at hd
        have hx := hd.2
        simp only [resolveName, if_pos rfl, Bool.and_eq_true, beq_iff_eq] at hx
        exact hd.1 hx.2.symm
      · rw [if_neg hu] at h
        rcases hgr : parseGroupRef f with _ | ⟨sign, g0⟩ <;> rw [hgr] at h <;>
          rw [hgr] at hd <;> dsimp only at h hd
        · simp at hd
        · have hx := hd.2
          simp only [Bool.and_eq_true, bne_iff_ne, ne_eq, beq_iff_eq] at hx
          have hplus : ¬ sign = "+" := hx.1
          have hres : resolveName g0 = g := hx.2
          have hgsrc : ¬ g = "source" := hd.1
          rw [if_neg hplus] at h
          have hsrc : ¬ resolveName g0 = "source" := by
            rw [hres]
            exact hgsrc
          rw [if_neg hsrc] at h
          by_cases hs : st.sourceSeen
          · rw [hs] at h
            simp only [Bool.not_true, Bool.false_eq_true, if_false] at h
            rcases hp : popFirst (resolveName g0) st.suffixGroups with _ | l <;> rw [hp] at h
            · exact absurd h (by simp)
            · have hst := Except.ok.inj h
              rw [← (Prod.mk.injEq _ _ _ _ |>.mp hst).2]
              rw [hres] at hp
              exact ⟨by simp [hs], Or.inr ⟨hs, by simp [hp], rfl⟩⟩
          · have hs0 : st.sourceSeen = false := Bool.not_eq_true _ |>.mp hs
            rw [hs0] at h
            simp only [Bool.not_false, if_pos] at h
            rcases hp : popFirst (resolveName g0) st.prefixGroups with _ | l <;> rw [hp] at h
            · exact absurd h (by simp)
            · have hst := Except.ok.inj h
              rw [← (Prod.mk.injEq _ _ _ _ |>.mp hst).2]
              rw [hres] at hp
              exact ⟨by simp [hs0], Or.inl ⟨hs0, by simp [hp], rfl⟩⟩

/-- A group-dropping field fails in get_field whenever the dropped name is
missing from the pool selected by the source-seen flag. -/
theorem getField_drop_fail {maps : Maps} {st : MLState} {f g : String}
    (hd : isDropOf g f = true)
    (hmiss : (st.sourceSeen = false ∧ g ∉ st.prefixGroups) ∨
      (st.sourceSeen = true ∧ g ∉ st.suffixGroups)) :
    isOkE (getField maps st f) = false := by
  unfold isDropOf at hd
  unfold getField
  rcases hmc : parseMapCall f with _ | ⟨m, gs⟩
  case some => rw [hmc] at hd; simp at hd
  case none =>
    rw [hmc] at hd
    simp only [Option.isNone_none, Bool.true_and, Bool.and_eq_true, bne_iff_ne, ne_eq] at hd
    dsimp only
    by_cases hacc : '[' ∈ f.data ∨ '.' ∈ f.data
    · rw [if_pos hacc]
      rfl
    · rw [if_neg hacc]
      unfold getValue
      by_cases hu : f = "_"
      · exfalso
        subst hu
        have h1 : parseGroupRef "_" = some ("", "_") := rfl
        rw [h1] at hd
        dsimp only at hd
        have hx := hd.2
        simp only [resolveName, if_pos rfl, Bool.and_eq_true, beq_iff_eq] at hx
        exact hd.1 hx.2.symm
      · rw [if_neg hu]
        rcases hgr : parseGroupRef f with _ | ⟨sign, g0⟩ <;> rw [hgr] at hd <;> dsimp only at hd
        · simp at hd
        · have hx := hd.2
          simp only [Bool.and_eq_true, bne_iff_ne, ne_eq, beq_iff_eq] at hx
          dsimp only
          rw [if_neg hx.1]
          have hsrc : ¬ resolveName g0 = "source" := by
            rw [hx.2]
            exact hd.1
          rw [if_neg hsrc, hx.2]
          rcases hmiss with ⟨hs, hm⟩ | ⟨hs, hm⟩
          · rw [hs]
            simp only [Bool.not_false, if_pos]
            rw [popFirst_none_of_not_mem hm]
            rfl
          · rw [hs]
            simp only [Bool.not_true, Bool.false_eq_true, if_false]
            rw [popFirst_none_of_not_mem hm]
            rfl

/-- An undeclared mapping name in a map-call field is always a get_field
error, at any formatter state. -/
theorem getField_undeclared {maps : Maps} {st : MLState} {f m : String}
    {gs : List String} (hcall : parseMapCall f = some (m, gs))
    (hundecl : maps.lookup m = none) :
    isOkE (getField maps st f) = false := by
  unfold getField
  rw [hcall]
  dsimp only
  rw [hundecl]
  rfl

/-- Splitting a formatter run over an append of token lists. -/
theorem processTokens_append (maps : Maps) (a b : List Tok) :
    ∀ st : MLState, processTokens maps st (a ++ b) =
      match processTokens maps st a with
      | .ok (o1, st1) =>
        (match processTokens maps st1 b with
         | .ok (o2, st2) => .ok (o1 ++ o2, st2)
         | .error e => .error e)
      | .error e => .error e := by
  induction a with
  | nil =>
    intro st
    dsimp only [List.nil_append, processTokens]
    rcases processTokens maps st b with e | ⟨o2, st2⟩ <;> rfl
  | cons t ts ih =>
    intro st
    cases t with
    | lit s =>
      dsimp only [List.cons_append, processTokens]
      rw [ih st]
      rcases processTokens maps st ts with e | ⟨o1, st1⟩
      · rfl
      · dsimp only
        rcases processTokens maps st1 b with e | ⟨o2, st2⟩
        · rfl
        · dsimp only
          rw [String.append_assoc]
    | field f =>
      dsimp only [List.cons_append, processTokens]
      rcases getField maps st f with e | ⟨v, st1⟩
      · rfl
      · dsimp only
        rw [ih st1]
        rcases processTokens maps st1 ts with e | ⟨o1, st2⟩
        · rfl
        · dsimp only
          rcases processTokens maps st2 b with e | ⟨o2, st3⟩
          · rfl
          · dsimp only
            rw [String.append_assoc]

/-- Over a successful formatter run the pools can only shrink, as
sublists of their initial contents. -/
theorem processTokens_pools {maps : Maps} : ∀ {ts : List Tok} {st st1 : MLState} {out : String},
    processTokens maps st ts = .ok (out, st1) →
    st1.prefixGroups.Sublist st.prefixGroups ∧ st1.suffixGroups.Sublist st.suffixGroups := by
  intro ts
  induction ts with
  | nil =>
    intro st st1 out h
    dsimp only [processTokens] at h
    have hst := Except.ok.inj h
    rw [← (Prod.mk.injEq _ _ _ _ |>.mp hst).2]
    exact ⟨List.Sublist.refl _, List.Sublist.refl _⟩
  | cons t ts ih =>
    intro st st1 out h
    cases t with
    | lit s =>
      dsimp only [processTokens] at h
      rcases hrest : processTokens maps st ts with e | ⟨o, st2⟩ <;> rw [hrest] at h
      · exact absurd h (by simp)
      · dsimp only at h
        have hst := Except.ok.inj h
        rw [← (Prod.mk.injEq _ _ _ _ |>.mp hst).2]
        exact ih hrest
    | field f =>
      dsimp only [processTokens] at h
      rcases hf : getField maps st f with e | ⟨v, st2⟩ <;> rw [hf] at h
      · exact absurd h (by simp)
      · dsimp only at h
        rcases hrest : processTokens maps st2 ts with e | ⟨o, st3⟩ <;> rw [hrest] at h
        · exact absurd h (by simp)
        · dsimp only at h
          have hst := Except.ok.inj h
          rw [← (Prod.mk.injEq _ _ _ _ |>.mp hst).2]
          have h1 := getField_step hf
          have h2 := ih hrest
          exact ⟨h2.1.trans h1.1, h2.2.trans h1.2.1⟩

/-- Over a successful formatter run the source-seen flag never reverts
from true to false. -/
theorem processTokens_seen_mono {maps : Maps} : ∀ {ts : List Tok} {st st1 : MLState} {out : String},
    processTokens maps st ts = .ok (out, st1) → st.sourceSeen = true →
    st1.sourceSeen = true := by
  intro ts
  induction ts with
  | nil =>
    intro st st1 out h hs
    dsimp only [processTokens] at h
    have hst := Except.ok.inj h
    rw [← (Prod.mk.injEq _ _ _ _ |>.mp hst).2]
    exact hs
  | cons t ts ih =>
    intro st st1 out h hs
    cases t with
    | lit s =>
      dsimp only [processTokens] at h
      rcases hrest : processTokens maps st ts with e | ⟨o, st2⟩ <;> rw [hrest] at h
      · exact absurd h (by simp)
      · dsimp only at h
        have hst := Except.ok.inj h
        rw [← (Prod.mk.injEq _ _ _ _ |>.mp hst).2]
        exact ih hrest hs
    | field f =>
      dsimp only [processTokens] at h
      rcases hf : getField maps st f with e | ⟨v, st2⟩ <;> rw [hf] at h
      · exact absurd h (by simp)
      · dsimp only at h
        rcases hrest : processTokens maps st2 ts with e | ⟨o, st3⟩ <;> rw [hrest] at h
        · exact absurd h (by simp)
        · dsimp only at h
          have hst := Except.ok.inj h
          rw [← (Prod.mk.injEq _ _ _ _ |>.mp hst).2]
          have h1 := getField_step hf
          rcases hc : isSourceConsume f with _ | _
          · exact ih hrest ((h1.2.2.2 hc).trans hs)
          · exact ih hrest (h1.2.2.1 hc).2

/-- A token list without source-consuming fields leaves the source-seen
flag unchanged over a successful run. -/
theorem processTokens_seen_stable {maps : Maps} : ∀ {ts : List Tok} {st st1 : MLState} {out : String},
    processTokens maps st ts = .ok (out, st1) →
    (∀ f, Tok.field f ∈ ts → isSourceConsume f = false) →
    st1.sourceSeen = st.sourceSeen := by
  intro ts
  induction ts with
  | nil =>
    intro st st1 out h _
    dsimp only [processTokens] at h
    have hst := Except.ok.inj h
    rw [← (Prod.mk.injEq _ _ _ _ |>.mp hst).2]
  | cons t ts ih =>
    intro st st1 out h hnc
    cases t with
    | lit s =>
      dsimp only [processTokens] at h
      rcases hrest : processTokens maps st ts with e | ⟨o, st2⟩ <;> rw [hrest] at h
      · exact absurd h (by simp)
      · dsimp only at h
        have hst := Except.ok.inj h
        rw [← (Prod.mk.injEq _ _ _ _ |>.mp hst).2]
        exact ih hrest (fun f hf => hnc f (List.mem_cons_of_mem _ hf))
    | field f =>
      dsimp only [processTokens] at h
      rcases hf : getField maps st f with e | ⟨v, st2⟩ <;> rw [hf] at h
      · exact absurd h (by simp)
      · dsimp only at h
        rcases hrest : processTokens maps st2 ts with e | ⟨o, st3⟩ <;> rw [hrest] at h
        · exact absurd h (by simp)
        · dsimp only at h
          have hst := Except.ok.inj h
          rw [← (Prod.mk.injEq _ _ _ _ |>.mp hst).2]
          have h1 := getField_step hf
          have hcf : isSourceConsume f = false := hnc f (List.mem_cons_self _ _)
          rw [ih hrest (fun f2 hf2 => hnc f2 (List.mem_cons_of_mem _ hf2))]
          exact h1.2.2.2 hcf

/-- A successful formatter run gives every field of the token list a
successful get_field at some intermediate state. -/
theorem processTokens_field_ok {maps : Maps} {ts : List Tok} {st st1 : MLState}
    {out f : String} (h : processTokens maps st ts = .ok (out, st1))
    (hmem : Tok.field f ∈ ts) :
    ∃ stx v sty, getField maps stx f = .ok (v, sty) := by
  obtain ⟨l1, l2, rfl⟩ := List.append_of_mem hmem
  rw [processTokens_append maps l1 (Tok.field f :: l2) st] at h
  rcases hA : processTokens maps st l1 with e | ⟨o1, stA⟩ <;> rw [hA] at h
  · exact absurd h (by simp)
  · dsimp only at h
    rcases hB : processTokens maps stA (Tok.field f :: l2) with e | ⟨o2, stB⟩ <;> rw [hB] at h
    · exact absurd h (by simp)
    · dsimp only [processTokens] at hB
      rcases hf : getField maps stA f with e | ⟨v, stC⟩ <;> rw [hf] at hB
      · exact absurd hB (by simp)
      · exact ⟨stA, v, stC, hf⟩

theorem getGroups_nil_iff (s : String) :
    getGroups s = [] ↔ definedGroups s = [] ∧ backrefGroups s = [] := by
  have hins : ∀ (l : List (Nat × String)) (kv : Nat × String), insertKeyed l kv ≠ [] := by
    intro l kv
    unfold insertKeyed
    by_cases h : l.any (fun x => x.1 = kv.1)
    · rw [if_pos h]
      rcases l with _ | ⟨x, xs⟩
      · simp at h
      · simp
    · rw [if_neg h]
      simp
  have hfold : ∀ (occs : List (Nat × String)) (acc : List (Nat × String)), acc ≠ [] →
      occs.foldl insertKeyed acc ≠ [] := by
    intro occs
    induction occs with
    | nil => intro acc hacc; exact hacc
    | cons x xs ih => intro acc _; exact ih (insertKeyed acc x) (hins acc x)
  have hsort : ∀ l : List (Nat × String), sortByKey l = [] ↔ l = [] := by
    intro l
    rcases l with _ | ⟨x, xs⟩
    · exact ⟨fun _ => rfl, fun _ => rfl⟩
    · constructor
      · intro h
        exfalso
        have : sortByKey (x :: xs) = insSorted x (sortByKey xs) := rfl
        rw [this] at h
        rcases hs : sortByKey xs with _ | ⟨y, ys⟩ <;> rw [hs] at h
        · exact absurd h (by simp [insSorted])
        · unfold insSorted at h
          by_cases hle : x.1 ≤ y.1 <;> simp [hle] at h
      · intro h
        exact absurd h (by simp)
  unfold getGroups definedGroups backrefGroups
  constructor
  · intro h
    rw [List.map_eq_nil_iff] at h
    rw [hsort] at h
    rcases hocc : scanBackrefs s ++ scanGroups s with _ | ⟨x, xs⟩
    · have := List.append_eq_nil.mp hocc
      rw [this.1, this.2]
      exact ⟨rfl, rfl⟩
    · exfalso
      rw [hocc] at h
      have : (x :: xs).foldl insertKeyed [] = xs.foldl insertKeyed (insertKeyed [] x) := rfl
      rw [this] at h
      exact hfold xs (insertKeyed [] x) (hins [] x) h
  · intro ⟨h1, h2⟩
    rw [List.map_eq_nil_iff] at h1 h2
    rw [h1, h2]
    rfl

theorem wrapCondIff (name s : String) :
    (if getGroups s = [] then ezreGroup name s else s) =
      (if definedGroups s = [] ∧ backrefGroups s = [] then ezreGroup name s else s) := by
  by_cases h : getGroups s = []
  · rw [if_pos h, if_pos ((getGroups_nil_iff s).mp h)]
  · rw [if_neg h, if_neg (fun hc => h ((getGroups_nil_iff s).mpr hc))]

/-- C1, counterexample: the claim says every unmentioned prefix or suffix
group is appended AFTER the author-placed emissions.  For the rule
source="aa", target="cde", the code instead prepends the leftover prefix
group before the author emission: the replacement is
\g<prefix>cde\g<suffix>, not cde\g<prefix>\g<suffix> as the claim
predicts. -/
theorem C1_counterexample :
    (mkRule "aa" [Tok.lit "cde"] none none 0 0 []).map Rule.replacement
        = .ok "\\g<prefix>cde\\g<suffix>" ∧
      ("\\g<prefix>cde\\g<suffix>" : String)
        ≠ "cde" ++ groupRefs ["prefix"] ++ groupRefs ["suffix"] :=
  ⟨rfl, by decide⟩

/-- C1 (amended): after the whole target template has been processed,
every prefix group never referenced or dropped is PREPENDED before the
author-placed emissions and every such suffix group is appended after
them, each as an implicit reference, the leftovers keeping their original
left-to-right inventory order (they form sublists of the inventories). -/
theorem C1_theorem (maps : Maps) (pgs sgs : List String) (toks : List Tok)
    (out : String) (st : MLState)
    (h : MLformat maps pgs sgs toks = .ok (out, st)) :
    (∃ body, processTokens maps ⟨pgs, sgs, false, []⟩ toks = .ok (body, st) ∧
      out = groupRefs st.prefixGroups ++ body ++ groupRefs st.suffixGroups) ∧
    st.prefixGroups.Sublist pgs ∧ st.suffixGroups.Sublist sgs := by
  unfold MLformat at h
  rcases hP : processTokens maps ⟨pgs, sgs, false, []⟩ toks with e | ⟨body, st2⟩ <;>
    rw [hP] at h
  · exact absurd h (by simp)
  · dsimp only at h
    have hst := Except.ok.inj h
    obtain ⟨ho, hs⟩ := Prod.mk.injEq _ _ _ _ |>.mp hst
    subst hs
    have hp := processTokens_pools hP
    exact ⟨⟨body, rfl, ho.symm⟩, hp.1, hp.2⟩

/-- C1, witness for the amended theorem at a concrete rule. -/
theorem C1_witness :
    (∃ body, processTokens [] ⟨["a"], ["b"], false, []⟩ [Tok.lit "x"]
        = .ok (body, (⟨["a"], ["b"], false, []⟩ : MLState)) ∧
      "\\g<a>x\\g<b>" = groupRefs (["a"] : List String) ++ body ++ groupRefs ["b"]) ∧
    List.Sublist ["a"] ["a"] ∧ List.Sublist ["b"] ["b"] :=
  C1_theorem [] ["a"] ["b"] [Tok.lit "x"] "\\g<a>x\\g<b>" ⟨["a"], ["b"], false, []⟩ rfl

/-- C3, counterexample: the prefix sub-pattern (?P=v) defines no named
group, yet pattern assembly does not wrap it in the implicit prefix group
(its inventory also counts the backreference), contradicting the claimed
"if and only if it defines no named groups". -/
theorem C3_counterexample :
    definedGroups "(?P=v)" = [] ∧
    getPatternStr "(?P=v)" "b" ""
        = "(?P=v)" ++ ezreGroup "source" "b" ++ ezreGroup "suffix" "" ∧
    getPatternStr "(?P=v)" "b" ""
        ≠ ezreGroup "prefix" "(?P=v)" ++ ezreGroup "source" "b" ++ ezreGroup "suffix" "" :=
  ⟨rfl, rfl, by decide⟩

/-- C3 (amended): pattern assembly wraps the prefix (resp. suffix, source)
in the implicit group exactly when the sub-pattern neither defines nor
backreferences any named group (its whole inventory is empty), not merely
when it defines none. -/
theorem C3_theorem (p s q : String) :
    getPatternStr p s q =
      (if definedGroups p = [] ∧ backrefGroups p = [] then ezreGroup "prefix" p else p) ++
      (if definedGroups s = [] ∧ backrefGroups s = [] then ezreGroup "source" s else s) ++
      (if definedGroups q = [] ∧ backrefGroups q = [] then ezreGroup "suffix" q else q) := by
  unfold getPatternStr
  rw [← wrapCondIff "prefix" p, ← wrapCondIff "source" s, ← wrapCondIff "suffix" q]

/-- C4, counterexample: the same name dropped twice with a group name
present in both the prefix inventory and the suffix inventory (defined in
the prefix, backreferenced in the suffix) constructs successfully: the
first drop consumes the prefix pool, the second the suffix pool, so no
CompileError is raised. -/
theorem C4_counterexample :
    isOkE (mkRule "b" [Tok.field "-v", Tok.field "_", Tok.field "-v"]
      (some "(?P=v)") (some "(?P<v>a)") 0 0 []) = true := by decide

/-- C4 (amended): consuming the source position twice (any mix of the bare
source key and source drops) always fails template compilation; dropping
the same group name twice fails whenever the two drops fall on the same
side of the source placeholder (none of the fields between them consuming
the source), given duplicate-free inventories — drops on opposite sides
can both succeed when the name is in both pools. -/
theorem C4_theorem :
    (∀ (maps : Maps) (pgs sgs : List String) (l1 l2 l3 : List Tok) (f1 f2 : String),
      isSourceConsume f1 = true → isSourceConsume f2 = true →
      isOkE (MLformat maps pgs sgs
        (l1 ++ (Tok.field f1 :: (l2 ++ (Tok.field f2 :: l3))))) = false) ∧
    (∀ (maps : Maps) (pgs sgs : List String) (l1 l2 l3 : List Tok) (g f1 f2 : String),
      pgs.Nodup → sgs.Nodup →
      isDropOf g f1 = true → isDropOf g f2 = true →
      (∀ f, Tok.field f ∈ l2 → isSourceConsume f = false) →
      isOkE (MLformat maps pgs sgs
        (l1 ++ (Tok.field f1 :: (l2 ++ (Tok.field f2 :: l3))))) = false) := by
  constructor
  · intro maps pgs sgs l1 l2 l3 f1 f2 hc1 hc2
    unfold MLformat
    rcases hP : processTokens maps ⟨pgs, sgs, false, []⟩
        (l1 ++ (Tok.field f1 :: (l2 ++ (Tok.field f2 :: l3)))) with e | ⟨body, stf⟩
    · rfl
    · exfalso
      rw [processTokens_append maps l1 _ _] at hP
      rcases hA : processTokens maps ⟨pgs, sgs, false, []⟩ l1 with e | ⟨o1, st1⟩ <;>
        rw [hA] at hP
      · exact absurd hP (by simp)
      · dsimp only at hP
        rcases hB : processTokens maps st1 (Tok.field f1 :: (l2 ++ (Tok.field f2 :: l3))) with
          e | ⟨o2, st2⟩ <;> rw [hB] at hP
        · exact absurd hP (by simp)
        · dsimp only [processTokens] at hB
          rcases hf1 : getField maps st1 f1 with e | ⟨v1, st3⟩ <;> rw [hf1] at hB
          · exact absurd hB (by simp)
          · dsimp only at hB
            rcases hC : processTokens maps st3 (l2 ++ (Tok.field f2 :: l3)) with e | ⟨o3, st4⟩ <;>
              rw [hC] at hB
            · exact absurd hB (by simp)
            · rw [processTokens_append maps l2 _ _] at hC
              rcases hD : processTokens maps st3 l2 with e | ⟨o4, st5⟩ <;> rw [hD] at hC
              · exact absurd hC (by simp)
              · dsimp only at hC
                rcases hE : processTokens maps st5 (Tok.field f2 :: l3) with e | ⟨o5, st6⟩ <;>
                  rw [hE] at hC
                · exact absurd hC (by simp)
                · dsimp only [processTokens] at hE
                  rcases hf2 : getField maps st5 f2 with e | ⟨v2, st7⟩ <;> rw [hf2] at hE
                  · exact absurd hE (by simp)
                  · have s1 := (getField_step hf1).2.2.1 hc1
                    have s2 := processTokens_seen_mono hD s1.2
                    have s3 := (getField_step hf2).2.2.1 hc2
                    exact absurd (s2.symm.trans s3.1) (by simp)
  · intro maps pgs sgs l1 l2 l3 g f1 f2 hnp hns hd1 hd2 hnc
    unfold MLformat
    rcases hP : processTokens maps ⟨pgs, sgs, false, []⟩
        (l1 ++ (Tok.field f1 :: (l2 ++ (Tok.field f2 :: l3)))) with e | ⟨body, stf⟩
    · rfl
    · exfalso
      rw [processTokens_append maps l1 _ _] at hP
      rcases hA : processTokens maps ⟨pgs, sgs, false, []⟩ l1 with e | ⟨o1, st1⟩ <;>
        rw [hA] at hP
      · exact absurd hP (by simp)
      · dsimp only at hP
        rcases hB : processTokens maps st1 (Tok.field f1 :: (l2 ++ (Tok.field f2 :: l3))) with
          e | ⟨o2, st2⟩ <;> rw [hB] at hP
        · exact absurd hP (by simp)
        · dsimp only [processTokens] at hB
          rcases hf1 : getField maps st1 f1 with e | ⟨v1, st3⟩ <;> rw [hf1] at hB
          · exact absurd hB (by simp)
          · dsimp only at hB
            rcases hC : processTokens maps st3 (l2 ++ (Tok.field f2 :: l3)) with e | ⟨o3, st4⟩ <;>
              rw [hC] at hB
            · exact absurd hB (by simp)
            · rw [processTokens_append maps l2 _ _] at hC
              rcases hD : processTokens maps st3 l2 with e | ⟨o4, st5⟩ <;> rw [hD] at hC
              · exact absurd hC (by simp)
              · dsimp only at hC
                rcases hE : processTokens maps st5 (Tok.field f2 :: l3) with e | ⟨o5, st6⟩ <;>
                  rw [hE] at hC
                · exact absurd hC (by simp)
                · dsimp only [processTokens] at hE
                  rcases hf2 : getField maps st5 f2 with e | ⟨v2, st7⟩ <;> rw [hf2] at hE
                  · exact absurd hE (by simp)
                  · -- the second drop must fail: same pool, name gone
                    have hpools1 := processTokens_pools hA
                    have hdrop := getField_drop hf1 hd1
                    have hseen5 := processTokens_seen_stable hD hnc
                    have hpools2 := processTokens_pools hD
                    have hfail : isOkE (getField maps st5 f2) = false := by
                      apply getField_drop_fail hd2
                      rcases hdrop.2 with ⟨hs, hpop, _⟩ | ⟨hs, hpop, _⟩
                      · left
                        constructor
                        · rw [hseen5, hdrop.1, hs]
                        · have hnd1 : st1.prefixGroups.Nodup := hnp.sublist hpools1.1
                          have hni : g ∉ st3.prefixGroups :=
                            popFirst_not_mem_of_nodup hnd1 hpop
                          exact fun hmem => hni (hpools2.1.subset hmem)
                      · right
                        constructor
                        · rw [hseen5, hdrop.1, hs]
                        · have hnd1 : st1.suffixGroups.Nodup := hns.sublist hpools1.2
                          have hni : g ∉ st3.suffixGroups :=
                            popFirst_not_mem_of_nodup hnd1 hpop
                          exact fun hmem => hni (hpools2.2.subset hmem)
                    rw [hf2] at hfail
                    exact absurd hfail (by simp [isOkE])

/-- C4, witness: concrete instances of the two parts of the amended
theorem (the bare source key twice, and the same drop twice on the same
side). -/
theorem C4_witness :
    isOkE (MLformat [] ["p0"] ["s0"]
        ([] ++ (Tok.field "_" :: ([] ++ (Tok.field "_" :: []))))) = false ∧
    isOkE (MLformat [] ["v"] ["w"]
        ([] ++ (Tok.field "-v" :: ([] ++ (Tok.field "-v" :: []))))) = false :=
  ⟨C4_theorem.1 [] ["p0"] ["s0"] [] [] [] "_" "_" (by decide) (by decide),
   C4_theorem.2 [] ["v"] ["w"] [] [] [] "v" "-v" "-v" (by decide) (by decide)
     (by decide) (by decide) (fun f hf => absurd hf (by simp))⟩

/-- C5: a mapping call whose mapping name is not declared always makes
rule construction fail (the mini-language formatter raises while the
replacement is compiled, before any pattern is built and before any apply
is possible). -/
theorem C5_theorem (source : String) (target : List Tok) (sfx pfx : Option String)
    (count flags : Nat) (maps : Maps) (f m : String) (gs : List String)
    (hmem : Tok.field f ∈ target) (hcall : parseMapCall f = some (m, gs))
    (hundecl : maps.lookup m = none) :
    isOkE (mkRule source target sfx pfx count flags maps) = false := by
  unfold mkRule
  dsimp only
  rcases hR : getReplacement maps (pfx.getD "") (sfx.getD "") target with e | ⟨repl, calls⟩
  · rfl
  · exfalso
    unfold getReplacement at hR
    dsimp only at hR
    rcases hM : MLformat maps
        (if getGroups (pfx.getD "") = [] then ["prefix"] else getGroups (pfx.getD ""))
        (if getGroups (sfx.getD "") = [] then ["suffix"] else getGroups (sfx.getD ""))
        target with e | ⟨out, st⟩ <;> rw [hM] at hR
    · exact absurd hR (by simp)
    · unfold MLformat at hM
      rcases hP : processTokens maps _ target with e | ⟨body, st2⟩ <;> rw [hP] at hM
      · exact absurd hM (by simp)
      · obtain ⟨stx, v, sty, hfld⟩ := processTokens_field_ok hP hmem
        have := @getField_undeclared _ stx _ _ _ hcall hundecl
        rw [hfld] at this
        exact absurd this (by simp [isOkE])

/-- C5, witness: a concrete rule using an undeclared mapping fails to
construct. -/
theorem C5_witness :
    isOkE (mkRule "p" [Tok.field "voiced[source]"] none none 0 0 []) = false :=
  C5_theorem "p" [Tok.field "voiced[source]"] none none 0 0 []
    "voiced[source]" "voiced" ["source"]
    (List.mem_cons_self _ _) (by decide) rfl

theorem not_mem_of_all_word {c : Char} (hc : isWordChar c = false)
    {l : List Char} (hl : l.all isWordChar = true) : c ∉ l := by
  intro hm
  have := List.all_eq_true.mp hl c hm
  rw [hc] at this
  exact absurd this (by simp)

theorem data_ne_nil {g : String} (h : g ≠ "") : g.data ≠ [] := by
  intro hd
  exact h (String.ext hd)

theorem parseMapCall_plus (g : String) : parseMapCall ("+" ++ g) = none := by
  unfold parseMapCall
  have h1 : ("+" ++ g).data = '+' :: g.data := by
    rw [String.data_append]
    rfl
  rw [h1]
  have h2 : ('+' :: g.data).takeWhile isWordChar = [] := by
    rw [List.takeWhile_cons]
    simp [show isWordChar '+' = false from rfl]
  simp [h2]

theorem parseGroupRef_plus (g : String) (hw : g.data.all isWordChar = true)
    (hne : g ≠ "") : parseGroupRef ("+" ++ g) = some ("+", g) := by
  unfold parseGroupRef
  have h1 : ("+" ++ g).data = '+' :: g.data := by
    rw [String.data_append]
    rfl
  rw [h1]
  dsimp only
  have h2 : g.data.takeWhile isWordChar = g.data :=
    List.takeWhile_eq_self_iff.mpr (fun c hc => List.all_eq_true.mp hw c hc)
  split
  · rw [h2]
    rw [if_neg (fun hEq => data_ne_nil hne (List.isEmpty_iff.mp hEq))]
  · next hcond => exact absurd (by decide) hcond

theorem getField_plus (maps : Maps) (st : MLState) (g : String)
    (hw : g.data.all isWordChar = true) (hne : g ≠ "") (hnu : g ≠ "_") :
    getField maps st ("+" ++ g) = .ok ("\\g<" ++ g ++ ">", st) := by
  unfold getField
  rw [parseMapCall_plus g]
  have hdata : ("+" ++ g).data = '+' :: g.data := by
    rw [String.data_append]
    rfl
  have hacc : ¬ ('[' ∈ ("+" ++ g).data ∨ '.' ∈ ("+" ++ g).data) := by
    rw [hdata]
    intro hor
    rcases hor with hm | hm <;> rcases List.mem_cons.mp hm with he | hm2
    · exact absurd he (by decide)
    · exact not_mem_of_all_word (by decide) hw hm2
    · exact absurd he (by decide)
    · exact not_mem_of_all_word (by decide) hw hm2
  rw [if_neg hacc]
  unfold getValue
  have hu : ¬ ("+" ++ g) = "_" := by
    intro he
    have := congrArg String.data he
    rw [hdata] at this
    exact absurd (List.cons.inj this).1 (by decide)
  rw [if_neg hu, parseGroupRef_plus g hw hne]
  dsimp only
  rw [if_pos rfl]
  unfold resolveName
  rw [if_neg hnu]

theorem strAssemble (X : String) :
    groupRefs ["prefix"] ++ ("\\g<source>" ++ ("\\g<" ++ X ++ ">" ++ "")) ++ groupRefs ["suffix"]
      = "\\g<prefix>\\g<source>\\g<" ++ X ++ ">\\g<suffix>" := by
  have h0 : groupRefs ["prefix"] = "\\g<prefix>" := rfl
  have h1 : groupRefs ["suffix"] = "\\g<suffix>" := rfl
  rw [h0, h1, String.append_empty]
  apply String.ext
  simp only [String.data_append, List.append_assoc]
  rw [← List.append_assoc ("\\g<source>" : String).data ("\\g<" : String).data]
  rw [← List.append_assoc ("\\g<prefix>" : String).data]
  rw [show ("\\g<prefix>" : String).data ++ (("\\g<source>" : String).data ++ ("\\g<" : String).data)
      = ("\\g<prefix>\\g<source>\\g<" : String).data from rfl]
  rfl

/-- C10: the '+'-form placeholder always compiles and emits a reference to
its group, with no existence check against the compiled pattern: here the
rule with source "a" and target tokens \x7b_\x7d\x7b+g\x7d constructs
successfully for every word-shaped name g, its replacement references g,
and whenever g is none of the canonical groups the compiled pattern's
inventory does not contain g at all. -/
theorem C10_theorem (g : String) (hw : g.data.all isWordChar = true)
    (hne : g ≠ "") (hnu : g ≠ "_") :
    ∃ r, mkRule "a" [Tok.field "_", Tok.field ("+" ++ g)] none none 0 0 [] = .ok r ∧
      r.replacement = "\\g<prefix>\\g<source>\\g<" ++ g ++ ">\\g<suffix>" ∧
      getGroups r.patternStr = ["prefix", "source", "suffix"] ∧
      (g ∉ (["prefix", "source", "suffix"] : List String) → g ∉ getGroups r.patternStr) := by
  have h1 : getField ([] : Maps) ⟨["prefix"], ["suffix"], false, []⟩ "_"
      = .ok ("\\g<source>", ⟨["prefix"], ["suffix"], true, []⟩) := rfl
  have h2 := getField_plus ([] : Maps) ⟨["prefix"], ["suffix"], true, []⟩ g hw hne hnu
  have h3 : processTokens [] ⟨["prefix"], ["suffix"], false, []⟩
      [Tok.field "_", Tok.field ("+" ++ g)]
      = .ok ("\\g<source>" ++ ("\\g<" ++ g ++ ">" ++ ""), ⟨["prefix"], ["suffix"], true, []⟩) := by
    dsimp only [processTokens]
    rw [h1]
    dsimp only
    rw [h2]
  have h4 : MLformat [] ["prefix"] ["suffix"] [Tok.field "_", Tok.field ("+" ++ g)]
      = .ok (groupRefs ["prefix"] ++ ("\\g<source>" ++ ("\\g<" ++ g ++ ">" ++ ""))
          ++ groupRefs ["suffix"], ⟨["prefix"], ["suffix"], true, []⟩) := by
    unfold MLformat
    rw [h3]
  have h5 : mkRule "a" [Tok.field "_", Tok.field ("+" ++ g)] none none 0 0 []
      = .ok ⟨getPatternStr "" "a" "",
          groupRefs ["prefix"] ++ ("\\g<source>" ++ ("\\g<" ++ g ++ ">" ++ ""))
            ++ groupRefs ["suffix"], [], [], 0, 0⟩ := by
    unfold mkRule getReplacement
    dsimp only
    rw [show getGroups ((none : Option String).getD "") = [] from rfl]
    rw [if_pos rfl, if_pos rfl, h4]
    rfl
  refine ⟨_, h5, ?_, ?_, ?_⟩
  · exact strAssemble g
  · rfl
  · intro hnm hmem
    exact hnm (by rw [show getGroups (getPatternStr "" "a" "")
        = ["prefix", "source", "suffix"] from rfl] at hmem; exact hmem)

/-- C10, witness: the unknown group name zzz compiles and is referenced in
the replacement although the pattern does not contain it. -/
theorem C10_witness :
    ∃ r, mkRule "a" [Tok.field "_", Tok.field ("+" ++ "zzz")] none none 0 0 [] = .ok r ∧
      r.replacement = "\\g<prefix>\\g<source>\\g<" ++ "zzz" ++ ">\\g<suffix>" ∧
      getGroups r.patternStr = ["prefix", "source", "suffix"] ∧
      ("zzz" ∉ (["prefix", "source", "suffix"] : List String) → "zzz" ∉ getGroups r.patternStr) :=
  C10_theorem "zzz" (by decide) (by decide) (by decide)

theorem takeWhile_app_drop (p : Char → Bool) : ∀ l : List Char,
    l.takeWhile p ++ l.drop (l.takeWhile p).length = l := by
  intro l
  induction l with
  | nil => rfl
  | cons c cs ih =>
    by_cases h : p c
    · simp only [List.takeWhile_cons, if_pos h, List.length_cons, List.drop_succ_cons,
        List.cons_append, List.cons.injEq, true_and]
      exact ih
    · simp [List.takeWhile_cons, h]

theorem firstCloseParen_lt : ∀ {l : List Char} {k : Nat},
    firstCloseParen l = some k → k < l.length ∧ l[k]? = some ')' := by
  intro l
  induction l with
  | nil => intro k h; simp [firstCloseParen] at h
  | cons c cs ih =>
    intro k h
    unfold firstCloseParen at h
    by_cases hc : c = ')'
    · rw [if_pos hc] at h
      have hk := Option.some.inj h
      subst hk
      subst hc
      exact ⟨by simp, by simp⟩
    · rw [if_neg hc] at h
      by_cases hn : c = '\n'
      · rw [if_pos hn] at h
        simp at h
      · rw [if_neg hn] at h
        rcases hrec : firstCloseParen cs with _ | k2 <;> rw [hrec] at h
        · simp at h
        · have hk := Option.some.inj h
          subst hk
          have := ih hrec
          refine ⟨by simp; omega, ?_⟩
          simpa using this.2

theorem brHeader_spec : ∀ {l : List Char} {w : String} {after : List Char},
    brHeader l = some (w, after) →
    1 ≤ w.length ∧ l[3]? = some '=' ∧
      ∃ pre : List Char, l = pre ++ after ∧ pre.length = 5 + w.length := by
  intro l w after h
  unfold brHeader at h
  split at h
  · next r2 =>
    by_cases hw : (r2.takeWhile isWordChar).isEmpty
    · rw [if_pos hw] at h
      simp at h
    · rw [if_neg hw] at h
      split at h
      · next after2 heq =>
        have hpair := Option.some.inj h
        obtain ⟨hw2, hafter⟩ := Prod.mk.injEq _ _ _ _ |>.mp hpair
        subst hafter
        refine ⟨?_, by simp, ?_⟩
        · rw [← hw2]
          rcases hne : r2.takeWhile isWordChar with _ | ⟨x, xs⟩
          · rw [hne] at hw
            exact absurd rfl hw
          · show 1 ≤ (x :: xs).length
            simp
        · refine ⟨'(' :: '?' :: 'P' :: '=' :: (r2.takeWhile isWordChar ++ [')']), ?_, ?_⟩
          · have hr2 : r2 = r2.takeWhile isWordChar ++ (')' :: after2) := by
              have h0 := takeWhile_app_drop isWordChar r2
              rw [heq] at h0
              exact h0.symm
            conv_lhs => rw [hr2]
            simp
          · simp only [List.length_cons, List.length_append, List.length_cons,
              List.length_nil, ← hw2]
            change _ = 5 + (List.takeWhile isWordChar r2).length
            omega
      · next => simp at h
  · next =>
    simp at h

theorem grHeader_spec : ∀ {l : List Char} {w : String} {k : Nat} {after : List Char},
    grHeader l = some (w, k, after) →
    1 ≤ w.length ∧ l[3]? = some '<' ∧
      ∃ pre : List Char, l = pre ++ after ∧ pre.length = 6 + w.length + k := by
  intro l w k after h
  unfold grHeader at h
  split at h
  · next r2 =>
    by_cases hw : (r2.takeWhile isWordChar).isEmpty
    · rw [if_pos hw] at h
      simp at h
    · rw [if_neg hw] at h
      split at h
      · next r3 heq =>
        split at h
        · next k2 hclose =>
          have hpair := Option.some.inj h
          obtain ⟨hw2, hrest⟩ := Prod.mk.injEq _ _ _ _ |>.mp hpair
          obtain ⟨hk2, hafter⟩ := Prod.mk.injEq _ _ _ _ |>.mp hrest
          subst hafter
          subst hk2
          have hcl := firstCloseParen_lt hclose
          refine ⟨?_, by simp, ?_⟩
          · rw [← hw2]
            rcases hne : r2.takeWhile isWordChar with _ | ⟨x, xs⟩
            · rw [hne] at hw
              exact absurd rfl hw
            · show 1 ≤ (x :: xs).length
              simp
          · refine ⟨'(' :: '?' :: 'P' :: '<' :: (r2.takeWhile isWordChar
                ++ '>' :: r3.take (k2 + 1)), ?_, ?_⟩
            · have hr2 : r2 = r2.takeWhile isWordChar ++ ('>' :: r3) := by
                have h0 := takeWhile_app_drop isWordChar r2
                rw [heq] at h0
                exact h0.symm
              have hr3 : r3 = r3.take (k2 + 1) ++ r3.drop (k2 + 1) :=
                (List.take_append_drop (k2 + 1) r3).symm
              conv_lhs => rw [hr2]
              conv_lhs => rw [hr3]
              simp
            · simp only [List.length_cons, List.length_append, List.length_cons, ← hw2]
              have htk : (r3.take (k2 + 1)).length = k2 + 1 := by
                rw [List.length_take]
                omega
              rw [htk]
              change _ = 6 + (List.takeWhile isWordChar r2).length + k2
              omega
        · next => simp at h
      · next => simp at h
  · next =>
    simp at h

/-- Invariant of the backreference scanner: every reported offset is at
least four past the scan position and sits one past an '=' character;
offsets are strictly increasing. -/
theorem scanB_inv : ∀ (fuel : Nat) (l : List Char) (p : Nat),
    (∀ kv ∈ scanBackrefsF fuel l p, p + 4 ≤ kv.1 ∧ l[kv.1 - p - 1]? = some '=') ∧
    List.Pairwise (fun a b : Nat × String => a.1 < b.1) (scanBackrefsF fuel l p) := by
  intro fuel
  induction fuel with
  | zero =>
    intro l p
    exact ⟨fun kv hkv => absurd hkv (by simp [scanBackrefsF]), by simp [scanBackrefsF]⟩
  | succ fuel ih =>
    intro l p
    cases l with
    | nil =>
      exact ⟨fun kv hkv => absurd hkv (by simp [scanBackrefsF]), by simp [scanBackrefsF]⟩
    | cons c rest =>
      rcases hbr : brHeader (c :: rest) with _ | ⟨w, after⟩
      · have hscan : scanBackrefsF (fuel + 1) (c :: rest) p = scanBackrefsF fuel rest (p + 1) := by
          simp only [scanBackrefsF, hbr]
        rw [hscan]
        obtain ⟨hmem, hpw⟩ := ih rest (p + 1)
        refine ⟨?_, hpw⟩
        intro kv hkv
        obtain ⟨hb, hg⟩ := hmem kv hkv
        refine ⟨by omega, ?_⟩
        have hidx : kv.1 - p - 1 = (kv.1 - (p + 1) - 1) + 1 := by omega
        rw [hidx, List.getElem?_cons_succ]
        exact hg
      · obtain ⟨hwlen, hat3, pre, hl, hplen⟩ := brHeader_spec hbr
        have hscan : scanBackrefsF (fuel + 1) (c :: rest) p
            = (p + 4, w) :: scanBackrefsF fuel after (p + 5 + w.length) := by
          simp only [scanBackrefsF, hbr]
        rw [hscan]
        obtain ⟨hmem, hpw⟩ := ih after (p + 5 + w.length)
        constructor
        · intro kv hkv
          rcases List.mem_cons.mp hkv with hkv | hkv
          · subst hkv
            refine ⟨by omega, ?_⟩
            have hidx : (p + 4, w).1 - p - 1 = 3 := by omega
            rw [hidx]
            exact hat3
          · obtain ⟨hb, hg⟩ := hmem kv hkv
            refine ⟨by omega, ?_⟩
            rw [hl, List.getElem?_append_right (by omega : pre.length ≤ kv.1 - p - 1)]
            have hidx : kv.1 - p - 1 - pre.length = kv.1 - (p + 5 + w.length) - 1 := by
              omega
            rw [hidx]
            exact hg
        · refine List.Pairwise.cons ?_ hpw
          intro kv hkv
          have := (hmem kv hkv).1
          show p + 4 < kv.1
          omega

/-- Invariant of the group-definition scanner: every reported offset is at
least four past the scan position and sits one past a '<' character;
offsets are strictly increasing. -/
theorem scanG_inv : ∀ (fuel : Nat) (l : List Char) (p : Nat),
    (∀ kv ∈ scanGroupsF fuel l p, p + 4 ≤ kv.1 ∧ l[kv.1 - p - 1]? = some '<') ∧
    List.Pairwise (fun a b : Nat × String => a.1 < b.1) (scanGroupsF fuel l p) := by
  intro fuel
  induction fuel with
  | zero =>
    intro l p
    exact ⟨fun kv hkv => absurd hkv (by simp [scanGroupsF]), by simp [scanGroupsF]⟩
  | succ fuel ih =>
    intro l p
    cases l with
    | nil =>
      exact ⟨fun kv hkv => absurd hkv (by simp [scanGroupsF]), by simp [scanGroupsF]⟩
    | cons c rest =>
      rcases hgr : grHeader (c :: rest) with _ | ⟨w, k, after⟩
      · have hscan : scanGroupsF (fuel + 1) (c :: rest) p = scanGroupsF fuel rest (p + 1) := by
          simp only [scanGroupsF, hgr]
        rw [hscan]
        obtain ⟨hmem, hpw⟩ := ih rest (p + 1)
        refine ⟨?_, hpw⟩
        intro kv hkv
        obtain ⟨hb, hg⟩ := hmem kv hkv
        refine ⟨by omega, ?_⟩
        have hidx : kv.1 - p - 1 = (kv.1 - (p + 1) - 1) + 1 := by omega
        rw [hidx, List.getElem?_cons_succ]
        exact hg
      · obtain ⟨hwlen, hat3, pre, hl, hplen⟩ := grHeader_spec hgr
        have hscan : scanGroupsF (fuel + 1) (c :: rest) p
            = (p + 4, w) :: scanGroupsF fuel after (p + 6 + w.length + k) := by
          simp only [scanGroupsF, hgr]
        rw [hscan]
        obtain ⟨hmem, hpw⟩ := ih after (p + 6 + w.length + k)
        constructor
        · intro kv hkv
          rcases List.mem_cons.mp hkv with hkv | hkv
          · subst hkv
            refine ⟨by omega, ?_⟩
            have hidx : (p + 4, w).1 - p - 1 = 3 := by omega
            rw [hidx]
            exact hat3
          · obtain ⟨hb, hg⟩ := hmem kv hkv
            refine ⟨by omega, ?_⟩
            rw [hl, List.getElem?_append_right (by omega : pre.length ≤ kv.1 - p - 1)]
            have hidx : kv.1 - p - 1 - pre.length = kv.1 - (p + 6 + w.length + k) - 1 := by
              omega
            rw [hidx]
            exact hg
        · refine List.Pairwise.cons ?_ hpw
          intro kv hkv
          have := (hmem kv hkv).1
          show p + 4 < kv.1
          omega

/-- The offsets collected by the two scans over one string are pairwise
distinct: each scanner is strictly increasing, and a backreference name
offset follows an '=' while a definition name offset follows a '<'. -/
theorem scan_keys_nodup (s : String) :
    ((scanBackrefs s ++ scanGroups s).map Prod.fst).Nodup := by
  rw [List.map_append, List.nodup_append]
  refine ⟨?_, ?_, ?_⟩
  · rw [List.Nodup, List.pairwise_map]
    exact ((scanB_inv (s.data.length + 1) s.data 0).2).imp (fun h => Nat.ne_of_lt h)
  · rw [List.Nodup, List.pairwise_map]
    exact ((scanG_inv (s.data.length + 1) s.data 0).2).imp (fun h => Nat.ne_of_lt h)
  · intro k hk1 hk2
    obtain ⟨kv1, hm1, he1⟩ := List.mem_map.mp hk1
    obtain ⟨kv2, hm2, he2⟩ := List.mem_map.mp hk2
    have h1 := (scanB_inv (s.data.length + 1) s.data 0).1 kv1 hm1
    have h2 := (scanG_inv (s.data.length + 1) s.data 0).1 kv2 hm2
    rw [he1] at h1
    rw [he2] at h2
    rw [h1.2] at h2
    exact absurd (Option.some.inj h2.2) (by decide)

/-- When all offsets are distinct the Python dict accumulates every
occurrence: the fold with replace-or-append is a plain append. -/
theorem foldl_insertKeyed_eq (occs : List (Nat × String)) :
    ∀ acc : List (Nat × String), ((acc ++ occs).map Prod.fst).Nodup →
      occs.foldl insertKeyed acc = acc ++ occs := by
  induction occs with
  | nil => intro acc _; simp
  | cons x xs ih =>
    intro acc hnd
    have hnotin : x.1 ∉ acc.map Prod.fst := by
      intro hmem
      rw [List.map_append, List.nodup_append] at hnd
      exact hnd.2.2 hmem (by simp)
    have hx : insertKeyed acc x = acc ++ [x] := by
      unfold insertKeyed
      rw [if_neg]
      intro hany
      obtain ⟨y, hy, hyx⟩ := List.any_eq_true.mp hany
      exact hnotin (List.mem_map.mpr ⟨y, hy, of_decide_eq_true hyx⟩)
    rw [List.foldl_cons, hx, ih (acc ++ [x]) (by rwa [← List.append_cons])]
    simp

theorem insSorted_perm (x : Nat × String) : ∀ l, (insSorted x l).Perm (x :: l) := by
  intro l
  induction l with
  | nil => exact List.Perm.refl _
  | cons y ys ih =>
    unfold insSorted
    by_cases h : x.1 ≤ y.1
    · rw [if_pos h]
    · rw [if_neg h]
      exact (List.Perm.cons y ih).trans (List.Perm.swap x y ys)

theorem insSorted_pairwise (x : Nat × String) : ∀ l : List (Nat × String),
    l.Pairwise (fun a b => a.1 ≤ b.1) →
    (insSorted x l).Pairwise (fun a b => a.1 ≤ b.1) := by
  intro l
  induction l with
  | nil => intro _; simp [insSorted]
  | cons y ys ih =>
    intro hp
    obtain ⟨hy, hys⟩ := List.pairwise_cons.mp hp
    unfold insSorted
    by_cases h : x.1 ≤ y.1
    · rw [if_pos h]
      refine List.Pairwise.cons ?_ hp
      intro z hz
      rcases List.mem_cons.mp hz with hz | hz
      · rw [hz]
        exact h
      · exact Nat.le_trans h (hy z hz)
    · rw [if_neg h]
      refine List.Pairwise.cons ?_ (ih hys)
      intro z hz
      rcases List.mem_cons.mp ((insSorted_perm x ys).mem_iff.mp hz) with hz | hz
      · rw [hz]
        exact Nat.le_of_lt (Nat.lt_of_not_le h)
      · exact hy z hz

theorem sortByKey_perm (l : List (Nat × String)) : (sortByKey l).Perm l := by
  induction l with
  | nil => exact List.Perm.refl _
  | cons x xs ih => exact (insSorted_perm x (sortByKey xs)).trans (List.Perm.cons x ih)

theorem sortByKey_pairwise (l : List (Nat × String)) :
    (sortByKey l).Pairwise (fun a b => a.1 ≤ b.1) := by
  induction l with
  | nil => simp [sortByKey]
  | cons x xs ih => exact insSorted_pairwise x (sortByKey xs) ih

/-- C6, counterexample: the source sub-pattern of the repo's own doctest
(?P<vowel>(a|e))(?P<consonant>(k|p))(?P=vowel) yields an inventory in
which vowel appears twice — the dict is keyed by offset, not by name, so
the claimed "each name appearing exactly once" fails. -/
theorem C6_counterexample :
    getGroups "(?P<vowel>(a|e))(?P<consonant>(k|p))(?P=vowel)"
        = ["vowel", "consonant", "vowel"] ∧
      ¬ (["vowel", "consonant", "vowel"] : List String).Nodup := by
  exact ⟨by decide, by decide⟩

/-- C6 (amended): the group inventory lists one entry per occurrence
(definition or backreference), ordered by the character offset of the
occurrence's name; a name occurring at several offsets appears once per
offset, so names can repeat.  Formally the inventory is the name
projection of a permutation of all scanned occurrences sorted by
offset. -/
theorem C6_theorem (s : String) :
    ∃ occs : List (Nat × String),
      occs.Perm (scanBackrefs s ++ scanGroups s) ∧
      occs.Pairwise (fun a b => a.1 ≤ b.1) ∧
      getGroups s = occs.map Prod.snd := by
  refine ⟨sortByKey (scanBackrefs s ++ scanGroups s), sortByKey_perm _,
    sortByKey_pairwise _, ?_⟩
  show List.map Prod.snd (sortByKey (List.foldl insertKeyed []
      (scanBackrefs s ++ scanGroups s))) = _
  rw [foldl_insertKeyed_eq _ [] (by simpa using scan_keys_nodup s)]
  rfl

theorem buildDecls_length {maps : Maps} : ∀ {calls : List (String × List String)}
    {decls : List String}, buildDecls maps calls = .ok decls →
    decls.length = calls.length := by
  intro calls
  induction calls with
  | nil =>
    intro decls h
    have := Except.ok.inj h
    rw [← this]
    rfl
  | cons c rest ih =>
    intro decls h
    unfold buildDecls at h
    rcases hl : maps.lookup c.1 with _ | table <;> rw [hl] at h <;> dsimp only at h
    · simp at h
    · rcases hn : normalizeMapping table with e | tree <;> rw [hn] at h
      · simp at h
      · rcases hb : buildDecls maps rest with e | rest2 <;> rw [hb] at h
        · simp at h
        · have := Except.ok.inj h
          rw [← this]
          simp [ih hb]

/-- C9, counterexample: a rule whose used mapping has an empty key
satisfies every condition of the claim (no unsafe character, zero count,
default flags) yet translation fails: normalize_mapping cannot unpack the
empty key. -/
theorem C9_counterexample :
    ∃ r, mkRule "p" [Tok.field "-_", Tok.field "m[source]"] none none 0 0
        [("m", [(MKey.str "", "x")])] = .ok r ∧
      ¬ '"' ∈ r.patternStr.data ∧ ¬ '"' ∈ r.replacement.data ∧
      r.flags = 0 ∧ r.count = 0 ∧
      isOkE (toJq r) = false := by
  refine ⟨_, rfl, by decide, by decide, rfl, rfl, rfl⟩

/-- C9 (amended): translation succeeds exactly when the pattern and the
replacement are free of the external literal delimiter '"', the
substitution count is zero, the flags are default, AND every mapping table
used by a mapping call serializes (its keys unpack to at least one
component and nest consistently); it always fails loudly otherwise. -/
theorem C9_theorem (r : Rule) :
    isOkE (toJq r) = true ↔
      ('"' ∉ r.patternStr.data ∧ '"' ∉ r.replacement.data ∧ r.flags = 0 ∧ r.count = 0 ∧
        isOkE (buildDecls r.maps r.mapCalls) = true) := by
  unfold toJq
  by_cases h1 : '"' ∈ r.patternStr.data
  · rw [if_pos h1]
    simp [isOkE, h1]
  · rw [if_neg h1]
    by_cases h2 : '"' ∈ r.replacement.data
    · rw [if_pos h2]
      simp [isOkE, h2]
    · rw [if_neg h2]
      by_cases h3 : r.flags ≠ 0
      · rw [if_pos h3]
        simp [isOkE, h3]
      · rw [if_neg h3]
        have h3b : r.flags = 0 := not_ne_iff.mp h3
        by_cases h4 : r.count ≠ 0
        · rw [if_pos h4]
          simp [isOkE, h4]
        · rw [if_neg h4]
          have h4b : r.count = 0 := not_ne_iff.mp h4
          dsimp only
          by_cases h5 : r.mapCalls = []
          · rw [if_pos h5]
            simp [isOkE, h1, h2, h3b, h4b, h5, buildDecls]
          · rw [if_neg h5]
            rcases hb : buildDecls r.maps r.mapCalls with e | decls
            · simp [isOkE, h1, h2, h3b, h4b, hb]
            · simp [isOkE, h1, h2, h3b, h4b, hb]

set_option maxRecDepth 8000 in
/-- C8, counterexample: one declared mapping m used with two different
argument groups produces TWO variable bindings " as $m" — bindings follow
distinct mapping CALLS, not distinct mappings, so a table can be bound
more than once. -/
theorem C8_counterexample :
    ∃ r out, mkRule "p" [Tok.field "_", Tok.field "m[a]", Tok.field "m[b]"]
        (some "(?P<b>y)") (some "(?P<a>x)") 0 0
        [("m", [(MKey.str "x", "X"), (MKey.str "y", "Y")])] = .ok r ∧
      toJq r = .ok out ∧
      r.mapCalls.map Prod.fst = ["m", "m"] ∧
      (r.mapCalls.map Prod.fst).dedup = ["m"] ∧
      countSubstr out " as $" = 2 := by
  refine ⟨_, _, rfl, rfl, rfl, by decide, by decide⟩

/-- C8 (amended): with no mapping calls the translation is the single
converted gsub expression with no bindings; with mapping calls it is the
per-call binding list (one " as $name" per distinct mapping call, names
possibly repeating), chained with " | " in front of the gsub
expression. -/
theorem C8_theorem (r : Rule) (decls : List String)
    (hq1 : '"' ∉ r.patternStr.data) (hq2 : '"' ∉ r.replacement.data)
    (hf : r.flags = 0) (hc : r.count = 0)
    (hd : buildDecls r.maps r.mapCalls = .ok decls) :
    decls.length = r.mapCalls.length ∧
    toJq r = .ok (if r.mapCalls = []
        then "gsub(\"" ++ convBackrefs (convGroups r.patternStr) ++ "\"; \""
          ++ convMapCalls (convReplrefs r.replacement) ++ "\")"
        else String.intercalate " | " decls ++ " | gsub(\""
          ++ convBackrefs (convGroups r.patternStr) ++ "\"; \""
          ++ convMapCalls (convReplrefs r.replacement) ++ "\")") := by
  refine ⟨buildDecls_length hd, ?_⟩
  unfold toJq
  rw [if_neg hq1, if_neg hq2, if_neg (not_ne_iff.mpr hf), if_neg (not_ne_iff.mpr hc)]
  dsimp only
  by_cases h5 : r.mapCalls = []
  · rw [if_pos h5, if_pos h5]
  · rw [if_neg h5, if_neg h5, hd]

/-- C8, witness: the no-mapping doctest rule translates to the bare gsub
expression with zero bindings. -/
theorem C8_witness :
    ([] : List String).length = jqDemoRule.mapCalls.length ∧
    toJq jqDemoRule = .ok (if jqDemoRule.mapCalls = []
        then "gsub(\"" ++ convBackrefs (convGroups jqDemoRule.patternStr) ++ "\"; \""
          ++ convMapCalls (convReplrefs jqDemoRule.replacement) ++ "\")"
        else String.intercalate " | " [] ++ " | gsub(\""
          ++ convBackrefs (convGroups jqDemoRule.patternStr) ++ "\"; \""
          ++ convMapCalls (convReplrefs jqDemoRule.replacement) ++ "\")") :=
  C8_theorem jqDemoRule [] (by decide) (by decide) rfl rfl rfl

/-- C7 counterexample: two rules identical except for the name of their
mapping ("voiced" vs "devoiced"), each with a single-group mapping call
whose table misses the key captured from input "q", produce the very same
error value, a KeyError carrying only the key "q" — the raised error does
not notably mention the mapping's name. -/
theorem C7_counterexample :
    ∃ r1 r2,
      mkRule "(p|q)" [Tok.field "-_", Tok.field "voiced[source]"] none none 0 0
          [("voiced", [(MKey.str "p", "b")])] = .ok r1 ∧
      mkRule "(p|q)" [Tok.field "-_", Tok.field "devoiced[source]"] none none 0 0
          [("devoiced", [(MKey.str "p", "b")])] = .ok r2 ∧
      r1.mapCalls = [("voiced", ["source"])] ∧
      r2.mapCalls = [("devoiced", ["source"])] ∧
      applyRule r1 "q" = .error (ApplyErr.keyErr (MKey.str "q")) ∧
      applyRule r2 "q" = .error (ApplyErr.keyErr (MKey.str "q")) :=
  ⟨_, _, rfl, rfl, rfl, rfl, rfl, rfl⟩

/-- C7 (amended): resolving a mapping call against a match reads the
captures of the call's argument groups, indexes the mapping's table by the
bare captured string when the call names a single group and by the tuple
of captured strings when it names several, succeeds with the table's value
when the key is present, and otherwise fails with a KeyError carrying the
offending key (and nothing else: in particular not the mapping's name). -/
theorem C7_theorem (maps : Maps) (caps : Caps) (m : String) (gs : List String)
    (vs : List (List Char)) (table : UserMapping)
    (hvs : gs.mapM (lookupCaps caps) = some vs)
    (htab : maps.lookup m = some table) :
    (∀ v, vs = [v] →
      (table.lookup (MKey.str (String.mk v)) = none →
        buildMapData maps caps [(m, gs)] = .error (ApplyErr.keyErr (MKey.str (String.mk v)))) ∧
      (∀ out, table.lookup (MKey.str (String.mk v)) = some out →
        buildMapData maps caps [(m, gs)] = .ok [((m, gs), out)])) ∧
    (2 ≤ vs.length →
      (table.lookup (MKey.tup (vs.map String.mk)) = none →
        buildMapData maps caps [(m, gs)] = .error (ApplyErr.keyErr (MKey.tup (vs.map String.mk)))) ∧
      (∀ out, table.lookup (MKey.tup (vs.map String.mk)) = some out →
        buildMapData maps caps [(m, gs)] = .ok [((m, gs), out)])) := by
  constructor
  · intro v hv
    subst hv
    constructor
    · intro hnone
      simp only [buildMapData, hvs, htab, hnone]
    · intro out hout
      simp only [buildMapData, hvs, htab, hout]
  · intro hlen
    rcases vs with _ | ⟨a, _ | ⟨b, rest⟩⟩
    · simp at hlen
    · simp at hlen
    · constructor
      · intro hnone
        simp only [buildMapData, hvs, htab, hnone]
      · intro out hout
        simp only [buildMapData, hvs, htab, hout]

/-- Witness for C7: the single-group call of the counterexample, resolved
against the capture source ↦ "q" and the table missing that key, yields
exactly the KeyError carrying the key. -/
theorem C7_witness :
    buildMapData [("voiced", [(MKey.str "p", "b")])] [("source", ['q'])]
        [("voiced", ["source"])] = .error (ApplyErr.keyErr (MKey.str "q")) :=
  ((C7_theorem [("voiced", [(MKey.str "p", "b")])] [("source", ['q'])] "voiced" ["source"]
      [['q']] [(MKey.str "p", "b")] rfl rfl).1 ['q'] rfl).1 rfl



/-- The first element rejected by dropWhile fails the predicate. -/
theorem dropWhile_head_not {α : Type} {p : α → Bool} :
    ∀ {l : List α} {c : α} {r : List α}, l.dropWhile p = c :: r → p c = false := by
  intro l
  induction l with
  | nil => intro c r h; simp [List.dropWhile] at h
  | cons x xs ih =>
    intro c r h
    rw [List.dropWhile_cons] at h
    by_cases hx : p x
    · rw [if_pos hx] at h; exact ih h
    · rw [if_neg hx] at h
      injection h with h1 _
      subst h1
      exact Bool.not_eq_true _ ▸ (by simpa using hx)

/-- Dropping as many elements as takeWhile keeps is dropWhile. -/
theorem drop_takeWhile_length {α : Type} (p : α → Bool) :
    ∀ (l : List α), l.drop (l.takeWhile p).length = l.dropWhile p := by
  intro l
  induction l with
  | nil => rfl
  | cons x xs ih =>
    rw [List.takeWhile_cons, List.dropWhile_cons]
    by_cases hx : p x
    · rw [if_pos hx, if_pos hx]
      simpa using ih
    · rw [if_neg hx, if_neg hx]
      rfl

/-- takeWhile over a run of accepted elements followed by a rejected one
keeps exactly the run. -/
theorem takeWhile_all_append {α : Type} {p : α → Bool} :
    ∀ {a : List α} {c : α} (b : List α), (∀ x ∈ a, p x) → p c = false →
      (a ++ c :: b).takeWhile p = a := by
  intro a
  induction a with
  | nil =>
    intro c b _ hc
    rw [List.nil_append, List.takeWhile_cons, if_neg (by simp [hc])]
  | cons x xs ih =>
    intro c b ha hc
    rw [List.cons_append, List.takeWhile_cons, if_pos (ha x (by simp))]
    rw [ih b (fun y hy => ha y (by simp [hy])) hc]

/-- find? skips a block of elements all failing the predicate. -/
theorem find?_append_none {α : Type} {p : α → Bool} :
    ∀ {k : List α}, (∀ e ∈ k, p e = false) → ∀ (l : List α),
      (k ++ l).find? p = l.find? p := by
  intro k
  induction k with
  | nil => intro _ l; rfl
  | cons x xs ih =>
    intro hk l
    rw [List.cons_append, List.find?_cons, hk x (by simp)]
    exact ih (fun e he => hk e (by simp [he])) l

/-- More fuel never invalidates a successful parse (all three parsers). -/
theorem parse_mono : ∀ fuel,
    (∀ s r, parseAltF fuel s = some r → parseAltF (fuel + 1) s = some r) ∧
    (∀ s r, parseSeqF fuel s = some r → parseSeqF (fuel + 1) s = some r) ∧
    (∀ s r, parseAtomF fuel s = some r → parseAtomF (fuel + 1) s = some r) := by
  intro fuel
  induction fuel with
  | zero =>
    refine ⟨?_, ?_, ?_⟩ <;> exact fun s r h => by simp [parseAltF, parseSeqF, parseAtomF] at h
  | succ fuel ih =>
    obtain ⟨ihA, ihS, ihT⟩ := ih
    refine ⟨?_, ?_, ?_⟩
    · intro s r h
      rw [parseAltF] at h ⊢
      cases hseq : parseSeqF fuel s with
      | none => rw [hseq] at h; simp at h
      | some pr =>
        obtain ⟨al, rest⟩ := pr
        rw [hseq] at h
        rw [ihS _ _ hseq]
        dsimp only at h ⊢
        cases rest with
        | nil => exact h
        | cons c rest2 =>
          dsimp only at h ⊢
          by_cases hc : c = '|'
          · subst hc
            rw [if_pos rfl] at h ⊢
            cases hrec : parseAltF fuel rest2 with
            | none => rw [hrec] at h; simp at h
            | some pr2 =>
              rw [hrec] at h
              rw [ihA _ _ hrec]
              exact h
          · rw [if_neg hc] at h ⊢
            exact h
    · intro s r h
      rw [parseSeqF.eq_def] at h ⊢
      dsimp only at h ⊢
      cases s with
      | nil => exact h
      | cons c s0 =>
        dsimp only at h ⊢
        by_cases hc : c = '|' ∨ c = ')'
        · rw [if_pos hc] at h ⊢; exact h
        · rw [if_neg hc] at h ⊢
          cases ha : parseAtomF fuel (c :: s0) with
          | none => rw [ha] at h; simp at h
          | some pa =>
            obtain ⟨a, restA⟩ := pa
            rw [ha] at h
            rw [ihT _ _ ha]
            dsimp only at h ⊢
            cases hs2 : parseSeqF fuel restA with
            | none => rw [hs2] at h; simp at h
            | some pr2 =>
              rw [hs2] at h
              rw [ihS _ _ hs2]
              exact h
    · intro s r h
      rw [parseAtomF.eq_def] at h ⊢
      dsimp only at h ⊢
      cases s with
      | nil => simp at h
      | cons c rest =>
        dsimp only at h ⊢
        by_cases hc : c = '('
        · rw [if_pos hc] at h ⊢
          cases rest with
          | nil => simp at h
          | cons c2 rest2 =>
            dsimp only at h ⊢
            by_cases hc2 : c2 = '?'
            · rw [if_pos hc2] at h ⊢
              cases rest2 with
              | nil => simp at h
              | cons c3 rest3 =>
                dsimp only at h ⊢
                by_cases hc3 : c3 = 'P'
                · rw [if_pos hc3] at h ⊢
                  cases rest3 with
                  | nil => simp at h
                  | cons c4 rest4 =>
                    dsimp only at h ⊢
                    by_cases hc4 : c4 = '<'
                    · rw [if_pos hc4] at h ⊢
                      by_cases hw : (rest4.takeWhile isWordChar).isEmpty
                      · rw [if_pos hw] at h; simp at h
                      · rw [if_neg hw] at h ⊢
                        cases hd : rest4.drop (rest4.takeWhile isWordChar).length with
                        | nil => rw [hd] at h; simp at h
                        | cons c5 r3 =>
                          rw [hd] at h
                          dsimp only at h ⊢
                          by_cases hc5 : c5 = '>'
                          · rw [if_pos hc5] at h ⊢
                            cases hin : parseAltF fuel r3 with
                            | none => rw [hin] at h; simp at h
                            | some pi =>
                              obtain ⟨inner, restI⟩ := pi
                              rw [hin] at h
                              rw [ihA _ _ hin]
                              dsimp only at h ⊢
                              cases restI with
                              | nil => simp at h
                              | cons c6 rest6 =>
                                dsimp only at h ⊢
                                by_cases hc6 : c6 = ')'
                                · rw [if_pos hc6] at h ⊢; exact h
                                · rw [if_neg hc6] at h; simp at h
                          · rw [if_neg hc5] at h; simp at h
                    · rw [if_neg hc4] at h; simp at h
                · rw [if_neg hc3] at h; simp at h
            · rw [if_neg hc2] at h ⊢
              cases hin : parseAltF fuel (c2 :: rest2) with
              | none => rw [hin] at h; simp at h
              | some pi =>
                obtain ⟨inner, restI⟩ := pi
                rw [hin] at h
                rw [ihA _ _ hin]
                dsimp only at h ⊢
                cases restI with
                | nil => simp at h
                | cons c6 rest6 =>
                  dsimp only at h ⊢
                  by_cases hc6 : c6 = ')'
                  · rw [if_pos hc6] at h ⊢; exact h
                  · rw [if_neg hc6] at h; simp at h
        · rw [if_neg hc] at h ⊢
          exact h

/-- Fuel monotonicity for the alternation parser. -/
theorem parseAltF_mono_le {f g : Nat} (hfg : f ≤ g) :
    ∀ {s r}, parseAltF f s = some r → parseAltF g s = some r := by
  intro s r hf
  obtain ⟨d, rfl⟩ := Nat.exists_eq_add_of_le hfg
  clear hfg
  induction d with
  | zero => exact hf
  | succ d ihd => exact (parse_mono (f + d)).1 _ _ ihd

/-- Fuel monotonicity for the sequence parser. -/
theorem parseSeqF_mono_le {f g : Nat} (hfg : f ≤ g) :
    ∀ {s r}, parseSeqF f s = some r → parseSeqF g s = some r := by
  intro s r hf
  obtain ⟨d, rfl⟩ := Nat.exists_eq_add_of_le hfg
  clear hfg
  induction d with
  | zero => exact hf
  | succ d ihd => exact (parse_mono (f + d)).2.1 _ _ ihd

/-- Fuel monotonicity for the atom parser. -/
theorem parseAtomF_mono_le {f g : Nat} (hfg : f ≤ g) :
    ∀ {s r}, parseAtomF f s = some r → parseAtomF g s = some r := by
  intro s r hf
  obtain ⟨d, rfl⟩ := Nat.exists_eq_add_of_le hfg
  clear hfg
  induction d with
  | zero => exact hf
  | succ d ihd => exact (parse_mono (f + d)).2.2 _ _ ihd

/-- Appending input beyond the point where a parse stopped does not change
the parse: an alternation that stopped at a ')', a sequence that stopped
at a delimiter, and an atom, all consume the same characters and leave the
appended text in the remainder. -/
theorem parse_append : ∀ fuel,
    (∀ s r r2 t, parseAltF fuel s = some (r, ')' :: r2) →
      parseAltF fuel (s ++ t) = some (r, ')' :: (r2 ++ t))) ∧
    (∀ s al c r2 t, parseSeqF fuel s = some (al, c :: r2) →
      parseSeqF fuel (s ++ t) = some (al, c :: (r2 ++ t))) ∧
    (∀ s a rest t, parseAtomF fuel s = some (a, rest) →
      parseAtomF fuel (s ++ t) = some (a, rest ++ t)) := by
  intro fuel
  induction fuel with
  | zero =>
    refine ⟨?_, ?_, ?_⟩
    · exact fun s r r2 t h => by simp [parseAltF] at h
    · exact fun s al c r2 t h => by simp [parseSeqF] at h
    · exact fun s a rest t h => by simp [parseAtomF] at h
  | succ fuel ih =>
    obtain ⟨ihA, ihS, ihT⟩ := ih
    refine ⟨?_, ?_, ?_⟩
    · intro s r r2 t h
      rw [parseAltF] at h ⊢
      cases hseq : parseSeqF fuel s with
      | none => rw [hseq] at h; simp at h
      | some pr =>
        obtain ⟨al, rest1⟩ := pr
        rw [hseq] at h
        dsimp only at h
        cases rest1 with
        | nil => simp at h
        | cons c rest2 =>
          dsimp only at h
          by_cases hc : c = '|'
          · subst hc
            rw [if_pos rfl] at h
            cases hrec : parseAltF fuel rest2 with
            | none => rw [hrec] at h; simp at h
            | some pr2 =>
              obtain ⟨rr, rest3⟩ := pr2
              rw [hrec] at h
              dsimp only at h
              simp only [Option.some.injEq, Prod.mk.injEq] at h
              obtain ⟨h1, h2⟩ := h
              subst h2
              rw [ihS _ _ _ _ t hseq]
              dsimp only
              rw [if_pos rfl]
              rw [ihA _ _ _ t hrec]
              dsimp only
              rw [h1]
          · rw [if_neg hc] at h
            simp only [Option.some.injEq, Prod.mk.injEq] at h
            obtain ⟨h1, h2⟩ := h
            injection h2 with h2a h2b
            subst h2a
            subst h2b
            rw [ihS _ _ _ _ t hseq]
            dsimp only
            rw [if_neg hc]
            rw [h1]
    · intro s al c r2 t h
      rw [parseSeqF.eq_def] at h ⊢
      dsimp only at h ⊢
      cases s with
      | nil =>
        dsimp only at h
        simp at h
      | cons c0 s0 =>
        dsimp only at h
        rw [List.cons_append]
        dsimp only
        by_cases hc0 : c0 = '|' ∨ c0 = ')'
        · rw [if_pos hc0] at h ⊢
          simp only [Option.some.injEq, Prod.mk.injEq] at h
          obtain ⟨h1, h2⟩ := h
          injection h2 with h2a h2b
          subst h1
          subst h2a
          subst h2b
          rfl
        · rw [if_neg hc0] at h ⊢
          cases ha : parseAtomF fuel (c0 :: s0) with
          | none => rw [ha] at h; simp at h
          | some pa =>
            obtain ⟨a, restA⟩ := pa
            rw [ha] at h
            dsimp only at h
            cases hs2 : parseSeqF fuel restA with
            | none => rw [hs2] at h; simp at h
            | some pr2 =>
              obtain ⟨al2, rest2⟩ := pr2
              rw [hs2] at h
              dsimp only at h
              simp only [Option.some.injEq, Prod.mk.injEq] at h
              obtain ⟨h1, h2⟩ := h
              subst h2
              have ha2 := ihT _ _ _ t ha
              rw [List.cons_append] at ha2
              rw [ha2]
              dsimp only
              rw [ihS _ _ _ _ t hs2]
              dsimp only
              rw [h1]
    · intro s a rest t h
      rw [parseAtomF.eq_def] at h ⊢
      dsimp only at h ⊢
      cases s with
      | nil => simp at h
      | cons c rest0 =>
        dsimp only at h
        rw [List.cons_append]
        dsimp only
        by_cases hc : c = '('
        · rw [if_pos hc] at h ⊢
          cases rest0 with
          | nil => simp at h
          | cons c2 rest2 =>
            dsimp only at h
            rw [List.cons_append]
            dsimp only
            by_cases hc2 : c2 = '?'
            · rw [if_pos hc2] at h ⊢
              cases rest2 with
              | nil => simp at h
              | cons c3 rest3 =>
                dsimp only at h
                rw [List.cons_append]
                dsimp only
                by_cases hc3 : c3 = 'P'
                · rw [if_pos hc3] at h ⊢
                  cases rest3 with
                  | nil => simp at h
                  | cons c4 rest4 =>
                    dsimp only at h
                    rw [List.cons_append]
                    dsimp only
                    by_cases hc4 : c4 = '<'
                    · rw [if_pos hc4] at h ⊢
                      by_cases hw : (rest4.takeWhile isWordChar).isEmpty
                      · rw [if_pos hw] at h; simp at h
                      · rw [if_neg hw] at h
                        cases hd : rest4.drop (rest4.takeWhile isWordChar).length with
                        | nil => rw [hd] at h; simp at h
                        | cons c5 r3 =>
                          rw [hd] at h
                          dsimp only at h
                          by_cases hc5 : c5 = '>'
                          · rw [if_pos hc5] at h
                            have hsplit : rest4 = rest4.takeWhile isWordChar ++ (c5 :: r3) := by
                              conv_lhs => rw [← List.takeWhile_append_dropWhile isWordChar rest4]
                              rw [← drop_takeWhile_length isWordChar rest4, hd]
                            have hnw : isWordChar c5 = false := by
                              have := @dropWhile_head_not Char isWordChar rest4 c5 r3
                              exact this (by rw [← drop_takeWhile_length isWordChar rest4, hd])
                            have htw : ((rest4 ++ t).takeWhile isWordChar) = rest4.takeWhile isWordChar := by
                              conv_lhs => rw [hsplit]
                              rw [List.append_assoc, List.cons_append]
                              exact takeWhile_all_append _ (fun x hx => List.mem_takeWhile_imp hx) hnw
                            have hsplit2 : rest4 ++ t
                                = rest4.takeWhile isWordChar ++ (c5 :: (r3 ++ t)) := by
                              conv_lhs => rw [hsplit]
                              rw [List.append_assoc, List.cons_append]
                            have hdr : (rest4 ++ t).drop (rest4.takeWhile isWordChar).length
                                = c5 :: (r3 ++ t) := by
                              rw [hsplit2, List.drop_left]
                            rw [htw, if_neg hw, hdr]
                            dsimp only
                            rw [if_pos hc5]
                            cases hin : parseAltF fuel r3 with
                            | none => rw [hin] at h; simp at h
                            | some pi =>
                              obtain ⟨inner, restI⟩ := pi
                              rw [hin] at h
                              dsimp only at h
                              cases restI with
                              | nil => simp at h
                              | cons c6 rest6 =>
                                dsimp only at h
                                by_cases hc6 : c6 = ')'
                                · rw [if_pos hc6] at h
                                  subst hc6
                                  rw [ihA _ _ _ t hin]
                                  dsimp only
                                  rw [if_pos rfl]
                                  simp only [Option.some.injEq, Prod.mk.injEq] at h
                                  obtain ⟨h1, h2⟩ := h
                                  subst h2
                                  rw [h1]
                                · rw [if_neg hc6] at h; simp at h
                          · rw [if_neg hc5] at h; simp at h
                    · rw [if_neg hc4] at h; simp at h
                · rw [if_neg hc3] at h; simp at h
            · rw [if_neg hc2] at h ⊢
              cases hin : parseAltF fuel (c2 :: rest2) with
              | none => rw [hin] at h; simp at h
              | some pi =>
                obtain ⟨inner, restI⟩ := pi
                rw [hin] at h
                dsimp only at h
                cases restI with
                | nil => simp at h
                | cons c6 rest6 =>
                  dsimp only at h
                  by_cases hc6 : c6 = ')'
                  · rw [if_pos hc6] at h
                    subst hc6
                    have hin2 := ihA _ _ _ t hin
                    rw [List.cons_append] at hin2
                    rw [hin2]
                    dsimp only
                    rw [if_pos rfl]
                    simp only [Option.some.injEq, Prod.mk.injEq] at h
                    obtain ⟨h1, h2⟩ := h
                    subst h2
                    rw [h1]
                  · rw [if_neg hc6] at h; simp at h
        · rw [if_neg hc] at h ⊢
          by_cases hsp : c = '|' ∨ c = ')' ∨ c = '*' ∨ c = '+' ∨ c = '?' ∨ c = '[' ∨ c = ']'
              ∨ c = '\x7b' ∨ c = '\x7d' ∨ c = '^' ∨ c = '$' ∨ c = '.' ∨ c = '\\'
          · rw [if_pos hsp] at h; simp at h
          · rw [if_neg hsp] at h ⊢
            simp only [Option.some.injEq, Prod.mk.injEq] at h
            obtain ⟨h1, h2⟩ := h
            subst h2
            rw [h1]

/-- Two fully consumed sequences concatenate: parsing their concatenation
yields the concatenated atom lists (with the second's remainder). -/
theorem parseSeq_continue : ∀ f g s t al bl restb,
    parseSeqF f s = some (al, []) → parseSeqF g t = some (bl, restb) →
    parseSeqF (f + g) (s ++ t) = some (al ++ bl, restb) := by
  intro f
  induction f with
  | zero => intro g s t al bl restb h _; simp [parseSeqF] at h
  | succ f ih =>
    intro g s t al bl restb h hg
    rw [parseSeqF.eq_def] at h
    dsimp only at h
    cases s with
    | nil =>
      dsimp only at h
      simp only [Option.some.injEq, Prod.mk.injEq] at h
      obtain ⟨h1, _⟩ := h
      subst h1
      rw [List.nil_append, List.nil_append]
      exact parseSeqF_mono_le (by omega) hg
    | cons c0 s0 =>
      dsimp only at h
      by_cases hc0 : c0 = '|' ∨ c0 = ')'
      · rw [if_pos hc0] at h
        simp at h
      · rw [if_neg hc0] at h
        cases ha : parseAtomF f (c0 :: s0) with
        | none => rw [ha] at h; simp at h
        | some pa =>
          obtain ⟨a, restA⟩ := pa
          rw [ha] at h
          dsimp only at h
          cases hs2 : parseSeqF f restA with
          | none => rw [hs2] at h; simp at h
          | some pr2 =>
            obtain ⟨al2, rest2⟩ := pr2
            rw [hs2] at h
            dsimp only at h
            simp only [Option.some.injEq, Prod.mk.injEq] at h
            obtain ⟨h1, h2⟩ := h
            subst h2
            have hfe : f + 1 + g = (f + g) + 1 := by omega
            rw [hfe, parseSeqF.eq_def]
            dsimp only
            rw [List.cons_append]
            dsimp only
            rw [if_neg hc0]
            have ha2 := (parse_append f).2.2 _ _ _ t ha
            have ha3 := parseAtomF_mono_le (show f ≤ f + g by omega) ha2
            rw [List.cons_append] at ha3
            rw [ha3]
            dsimp only
            rw [ih g restA t al2 bl restb hs2 hg]
            dsimp only
            rw [← h1]
            rfl

/-- A fully consumed sequence is also a full alternation parse. -/
theorem parseAlt_of_seq {f : Nat} {s : List Char} {al : List Rx}
    (h : parseSeqF f s = some (al, [])) :
    parseAltF (f + 1) s = some (seqList al, []) := by
  rw [parseAltF, h]

/-- A fully consumed alternation keeps parsing the same way when a ')'
and arbitrary text are appended: the parse stops right at the ')'. -/
theorem parseAlt_continue : ∀ f s r t, parseAltF f s = some (r, []) →
    parseAltF (f + 1) (s ++ (')' :: t)) = some (r, ')' :: t) := by
  intro f
  induction f with
  | zero => intro s r t h; simp [parseAltF] at h
  | succ f ih =>
    intro s r t h
    rw [parseAltF] at h
    cases hseq : parseSeqF f s with
    | none => rw [hseq] at h; simp at h
    | some pr =>
      obtain ⟨al, rest1⟩ := pr
      rw [hseq] at h
      dsimp only at h
      cases rest1 with
      | nil =>
        simp only [Option.some.injEq, Prod.mk.injEq] at h
        obtain ⟨h1, _⟩ := h
        rw [parseAltF]
        have h1seq : parseSeqF 1 (')' :: t) = some ([], ')' :: t) := by
          show parseSeqF (0 + 1) (')' :: t) = some ([], ')' :: t)
          rw [parseSeqF.eq_def]
          dsimp only
          rw [if_pos (Or.inr rfl)]
        have hcont := parseSeq_continue f 1 s (')' :: t) al [] (')' :: t) hseq h1seq
        rw [List.append_nil] at hcont
        rw [hcont]
        dsimp only
        rw [if_neg (by decide : ¬(')' = '|'))]
        rw [h1]
      | cons c rest2 =>
        dsimp only at h
        by_cases hc : c = '|'
        · subst hc
          rw [if_pos rfl] at h
          cases hrec : parseAltF f rest2 with
          | none => rw [hrec] at h; simp at h
          | some pr2 =>
            obtain ⟨rr, rest3⟩ := pr2
            rw [hrec] at h
            dsimp only at h
            simp only [Option.some.injEq, Prod.mk.injEq] at h
            obtain ⟨h1, h2⟩ := h
            subst h2
            rw [parseAltF]
            have hs2 := (parse_append f).2.1 _ _ _ _ (')' :: t) hseq
            have hs3 := parseSeqF_mono_le (show f ≤ f + 1 by omega) hs2
            rw [hs3]
            dsimp only
            rw [if_pos rfl]
            rw [ih _ _ t hrec]
            dsimp only
            rw [h1]
        · rw [if_neg hc] at h
          simp at h

/-- An empty input parses as the empty sequence. -/
theorem parseSeq_nil (f : Nat) : parseSeqF (f + 1) [] = some ([], []) := by
  rw [parseSeqF.eq_def]

/-- An empty input parses as the empty alternation. -/
theorem parseAlt_nil (f : Nat) : parseAltF (f + 2) [] = some (.eps, []) := by
  rw [parseAltF, parseSeq_nil]
  rfl

/-- A named-group atom: given a full parse of the inner pattern, the atom
parser consumes exactly the group construct. -/
theorem parseAtom_grp (name : String) (hw : ∀ x ∈ name.data, isWordChar x = true)
    (hne : ¬ name.data.isEmpty = true) (inner : List Char) (rx : Rx) (f : Nat)
    (tail : List Char) (hin : parseAltF f inner = some (rx, [])) :
    parseAtomF (f + 2)
        ('(' :: '?' :: 'P' :: '<' :: (name.data ++ ('>' :: (inner ++ (')' :: tail)))))
      = some (.grp name rx, tail) := by
  have htw : ((name.data ++ ('>' :: (inner ++ (')' :: tail)))).takeWhile isWordChar)
      = name.data :=
    takeWhile_all_append _ hw (by decide)
  show parseAtomF ((f + 1) + 1) _ = _
  rw [parseAtomF.eq_def]
  dsimp only
  rw [if_pos rfl, if_pos rfl, if_pos rfl, if_pos rfl]
  rw [htw, if_neg hne, List.drop_left]
  dsimp only
  rw [if_pos rfl]
  rw [parseAlt_continue f inner rx tail hin]
  dsimp only
  rw [if_pos rfl]

/-- A sequence starting with a named-group atom: the group is consumed and
the rest of the sequence continues on the tail. -/
theorem parseSeq_grpAtom (name : String) (hw : ∀ x ∈ name.data, isWordChar x = true)
    (hne : ¬ name.data.isEmpty = true) (inner : List Char) (rx : Rx) (f : Nat)
    (tail : List Char) (hin : parseAltF f inner = some (rx, [])) :
    parseSeqF (f + 3)
        ('(' :: '?' :: 'P' :: '<' :: (name.data ++ ('>' :: (inner ++ (')' :: tail)))))
      = (match parseSeqF (f + 2) tail with
         | some (al, r) => some (.grp name rx :: al, r)
         | none => none) := by
  show parseSeqF ((f + 2) + 1) _ = _
  rw [parseSeqF.eq_def]
  dsimp only
  rw [if_neg (by decide : ¬('(' = '|' ∨ '(' = ')'))]
  rw [parseAtom_grp name hw hne inner rx f tail hin]

/-- The assembled pattern of a group-bearing source (with empty context)
compiles to the wrapped fragment: empty prefix group, the source's own
atoms, empty suffix group. -/
theorem compile_wrapped_ungrouped (src : String) (al : List Rx)
    (hsrc : parseSeqF (2 * src.data.length + 7) src.data = some (al, []))
    (hg : ¬ getGroups src = []) :
    compileRx (getPatternStr "" src "") =
      some (seqList (Rx.grp "prefix" Rx.eps :: (al ++ [Rx.grp "suffix" Rx.eps]))) := by
  have hP : getPatternStr "" src ""
      = (ezreGroup "prefix" "" ++ (if getGroups src = [] then ezreGroup "source" src else src))
        ++ ezreGroup "suffix" "" := rfl
  rw [if_neg hg] at hP
  have hPd : (getPatternStr "" src "").data
      = (ezreGroup "prefix" "").data ++ (src.data ++ (ezreGroup "suffix" "").data) := by
    rw [hP]
    simp [String.data_append, List.append_assoc]
  have h1 : parseSeqF 5 (ezreGroup "prefix" "").data = some ([Rx.grp "prefix" Rx.eps], []) := rfl
  have h3 : parseSeqF 5 (ezreGroup "suffix" "").data = some ([Rx.grp "suffix" Rx.eps], []) := rfl
  have hA := parseSeq_continue (2 * src.data.length + 7) 5 src.data
    (ezreGroup "suffix" "").data al [Rx.grp "suffix" Rx.eps] [] hsrc h3
  have hB := parseSeq_continue 5 (2 * src.data.length + 7 + 5) (ezreGroup "prefix" "").data
    (src.data ++ (ezreGroup "suffix" "").data) [Rx.grp "prefix" Rx.eps]
    (al ++ [Rx.grp "suffix" Rx.eps]) [] h1 hA
  have hAlt := parseAlt_of_seq hB
  have hle : 5 + (2 * src.data.length + 7 + 5) + 1 ≤ pfuel (getPatternStr "" src "") := by
    unfold pfuel
    rw [hPd]
    have e1 : (ezreGroup "prefix" "").data.length = 12 := rfl
    have e2 : (ezreGroup "suffix" "").data.length = 12 := rfl
    simp only [List.length_append, e1, e2]
    omega
  have hAlt2 := parseAltF_mono_le hle hAlt
  unfold compileRx
  rw [hPd, hAlt2]
  rfl

/-- The assembled pattern of a group-free source (with empty context)
compiles to the wrapped fragment: empty prefix group, one group named
"source" holding the source's atoms, empty suffix group. -/
theorem compile_wrapped_grouped (src : String) (rsrc : Rx)
    (hsrc : parseAltF (2 * src.data.length + 7 + 1) src.data = some (rsrc, []))
    (hg : getGroups src = []) :
    compileRx (getPatternStr "" src "") =
      some (seqList (Rx.grp "prefix" Rx.eps ::
        ([Rx.grp "source" rsrc] ++ [Rx.grp "suffix" Rx.eps]))) := by
  have hP : getPatternStr "" src ""
      = (ezreGroup "prefix" "" ++ (if getGroups src = [] then ezreGroup "source" src else src))
        ++ ezreGroup "suffix" "" := rfl
  rw [if_pos hg] at hP
  have hPd : (getPatternStr "" src "").data
      = (ezreGroup "prefix" "").data
        ++ ((ezreGroup "source" src).data ++ (ezreGroup "suffix" "").data) := by
    rw [hP]
    simp [String.data_append, List.append_assoc]
  have hdata : (ezreGroup "source" src).data
      = '(' :: '?' :: 'P' :: '<' :: ("source".data ++ ('>' :: (src.data ++ (')' :: [])))) := rfl
  have hmid0 := parseSeq_grpAtom "source" (by decide) (by decide) src.data rsrc
    (2 * src.data.length + 7 + 1) [] hsrc
  rw [parseSeq_nil (2 * src.data.length + 7 + 1 + 1)] at hmid0
  have hmid : parseSeqF (2 * src.data.length + 7 + 1 + 3) (ezreGroup "source" src).data
      = some ([Rx.grp "source" rsrc], []) := by
    rw [hdata]
    exact hmid0
  have h1 : parseSeqF 5 (ezreGroup "prefix" "").data = some ([Rx.grp "prefix" Rx.eps], []) := rfl
  have h3 : parseSeqF 5 (ezreGroup "suffix" "").data = some ([Rx.grp "suffix" Rx.eps], []) := rfl
  have hA := parseSeq_continue (2 * src.data.length + 7 + 1 + 3) 5 (ezreGroup "source" src).data
    (ezreGroup "suffix" "").data [Rx.grp "source" rsrc] [Rx.grp "suffix" Rx.eps] []
    hmid h3
  have hB := parseSeq_continue 5 (2 * src.data.length + 7 + 1 + 3 + 5)
    (ezreGroup "prefix" "").data ((ezreGroup "source" src).data ++ (ezreGroup "suffix" "").data)
    [Rx.grp "prefix" Rx.eps] ([Rx.grp "source" rsrc] ++ [Rx.grp "suffix" Rx.eps]) []
    h1 hA
  have hAlt := parseAlt_of_seq hB
  have hle : 5 + (2 * src.data.length + 7 + 1 + 3 + 5) + 1 ≤ pfuel (getPatternStr "" src "") := by
    unfold pfuel
    rw [hPd]
    have e1 : (ezreGroup "prefix" "").data.length = 12 := rfl
    have e2 : (ezreGroup "suffix" "").data.length = 12 := rfl
    have e3 : (ezreGroup "source" src).data.length = src.data.length + 12 := by
      rw [hdata]
      simp [List.length_append]
    simp only [List.length_append, e1, e2, e3]
    omega
  have hAlt2 := parseAltF_mono_le hle hAlt
  unfold compileRx
  rw [hPd, hAlt2]
  rfl

/-- seqList turns list concatenation into fragment concatenation, up to
matching behaviour. -/
theorem matchList_seqList_append : ∀ (l1 l2 : List Rx) (s : List Char) (cap : Caps),
    (seqList (l1 ++ l2)).matchList s cap
      = (Rx.seq (seqList l1) (seqList l2)).matchList s cap := by
  intro l1
  induction l1 with
  | nil =>
    intro l2 s cap
    show (seqList l2).matchList s cap = (Rx.seq Rx.eps (seqList l2)).matchList s cap
    simp only [Rx.matchList, List.flatMap_cons, List.flatMap_nil, List.append_nil,
      List.nil_append]
    exact Eq.symm (List.map_id _)
  | cons a l1 ih =>
    intro l2 s cap
    show (Rx.seq a (seqList (l1 ++ l2))).matchList s cap
      = (Rx.seq (Rx.seq a (seqList l1)) (seqList l2)).matchList s cap
    simp only [Rx.matchList]
    simp only [ih]
    simp only [Rx.matchList, List.flatMap_assoc, List.map_flatMap, List.flatMap_map,
      List.map_map, Function.comp_def, List.append_assoc]

/-- Trailing empty fragment does not change matching. -/
theorem matchList_seq_eps (a : Rx) (s : List Char) (cap : Caps) :
    (Rx.seq a Rx.eps).matchList s cap = a.matchList s cap := by
  simp only [Rx.matchList, List.map_cons, List.map_nil]
  simp

/-- Captures thread additively: matching with seed captures is matching
with no seed captures, each result's captures extended by the seed. -/
theorem matchList_caps : ∀ (r : Rx) (s : List Char) (cap : Caps),
    r.matchList s cap = (r.matchList s []).map
      (fun x => (x.1, x.2.1, x.2.2 ++ cap)) := by
  intro r
  induction r with
  | eps => intro s cap; rfl
  | ch c =>
    intro s cap
    cases s with
    | nil => rfl
    | cons x xs =>
      simp only [Rx.matchList]
      by_cases hx : x = c
      · rw [if_pos hx, if_pos hx]; rfl
      · rw [if_neg hx, if_neg hx]; rfl
  | seq a b iha ihb =>
    intro s cap
    simp only [Rx.matchList]
    rw [iha s cap, List.flatMap_map, List.map_flatMap]
    congr 1
    funext x
    rw [ihb x.2.1 (x.2.2 ++ cap), ihb x.2.1 x.2.2]
    simp only [List.map_map, Function.comp]
    congr 1
    funext y
    simp [List.append_assoc]
  | alt a b iha ihb =>
    intro s cap
    simp only [Rx.matchList]
    rw [iha s cap, ihb s cap, List.map_append]
  | grp n r ihr =>
    intro s cap
    simp only [Rx.matchList]
    rw [ihr s cap, List.map_map, List.map_map]
    congr 1

/-- Every capture produced by a match is seeded or named by the
fragment. -/
theorem matchList_names : ∀ (r : Rx) (s : List Char) (cap : Caps)
    (res : List Char × List Char × Caps), res ∈ r.matchList s cap →
    ∀ e ∈ res.2.2, e ∈ cap ∨ e.1 ∈ r.names := by
  intro r
  induction r with
  | eps =>
    intro s cap res hres e he
    simp only [Rx.matchList, List.mem_singleton] at hres
    subst hres
    exact Or.inl he
  | ch c =>
    intro s cap res hres e he
    cases s with
    | nil => simp [Rx.matchList] at hres
    | cons x xs =>
      simp only [Rx.matchList] at hres
      by_cases hx : x = c
      · rw [if_pos hx] at hres
        simp only [List.mem_singleton] at hres
        subst hres
        exact Or.inl he
      · rw [if_neg hx] at hres; simp at hres
  | seq a b iha ihb =>
    intro s cap res hres e he
    simp only [Rx.matchList, List.mem_flatMap, List.mem_map] at hres
    obtain ⟨r1, hr1, r2, hr2, hres⟩ := hres
    subst hres
    rcases ihb _ _ _ hr2 e he with hcap | hnames
    · rcases iha _ _ _ hr1 e hcap with h1 | h2
      · exact Or.inl h1
      · exact Or.inr (by simp [Rx.names, h2])
    · exact Or.inr (by simp [Rx.names, hnames])
  | alt a b iha ihb =>
    intro s cap res hres e he
    simp only [Rx.matchList, List.mem_append] at hres
    rcases hres with h | h
    · rcases iha _ _ _ h e he with h1 | h2
      · exact Or.inl h1
      · exact Or.inr (by simp [Rx.names, h2])
    · rcases ihb _ _ _ h e he with h1 | h2
      · exact Or.inl h1
      · exact Or.inr (by simp [Rx.names, h2])
  | grp n r ihr =>
    intro s cap res hres e he
    simp only [Rx.matchList, List.mem_map] at hres
    obtain ⟨r1, hr1, hres⟩ := hres
    subst hres
    rcases List.mem_cons.mp he with he1 | he2
    · subst he1
      exact Or.inr (by simp [Rx.names])
    · rcases ihr _ _ _ hr1 e he2 with h1 | h2
      · exact Or.inl h1
      · exact Or.inr (by simp [Rx.names, h2])

/-- Matching is congruent in the right factor of a concatenation. -/
theorem matchList_congr_right (a : Rx) {X Y : Rx}
    (h : ∀ s cap, X.matchList s cap = Y.matchList s cap) (s : List Char) (cap : Caps) :
    (Rx.seq a X).matchList s cap = (Rx.seq a Y).matchList s cap := by
  simp only [Rx.matchList]
  congr 1
  funext r1
  rw [h]

/-- A leading empty named group contributes an empty capture to the seed
and nothing else. -/
theorem matchList_seq_pre (n : String) (b : Rx) (s : List Char) (cap : Caps) :
    (Rx.seq (Rx.grp n Rx.eps) b).matchList s cap
      = b.matchList s ((n, ([] : List Char)) :: cap) := by
  simp only [Rx.matchList, List.map_cons, List.map_nil, List.flatMap_cons,
    List.flatMap_nil, List.append_nil]
  exact List.map_id _

/-- A trailing empty named group adds an empty capture to every result and
nothing else. -/
theorem matchList_seq_post (a : Rx) (n : String) (s : List Char) (cap : Caps) :
    (Rx.seq a (Rx.grp n Rx.eps)).matchList s cap
      = (a.matchList s cap).map (fun x => (x.1, x.2.1, (n, ([] : List Char)) :: x.2.2)) := by
  simp only [Rx.matchList, List.map_cons, List.map_nil]
  have key : ∀ L : List (List Char × List Char × Caps),
      (L.flatMap fun r1 => [(r1.1 ++ [], r1.2.1, (n, ([] : List Char)) :: r1.2.2)])
      = L.map (fun x => (x.1, x.2.1, (n, ([] : List Char)) :: x.2.2)) := by
    intro L
    induction L with
    | nil => rfl
    | cons x xs ih =>
      simp only [List.flatMap_cons, ih, List.map_cons]
      simp
  exact key _

/-- The wrapped fragment built by pattern assembly matches exactly like
its middle, with each result's captures enriched by the empty "suffix"
capture in front and the empty "prefix" capture at the back. -/
theorem matchList_wrapped (mida : List Rx) (s : List Char) :
    (seqList (Rx.grp "prefix" Rx.eps :: (mida ++ [Rx.grp "suffix" Rx.eps]))).matchList s []
      = ((seqList mida).matchList s []).map
        (fun x => (x.1, x.2.1,
          ("suffix", ([] : List Char)) :: (x.2.2 ++ [("prefix", ([] : List Char))]))) := by
  show (Rx.seq (Rx.grp "prefix" Rx.eps)
      (seqList (mida ++ [Rx.grp "suffix" Rx.eps]))).matchList s [] = _
  rw [matchList_seq_pre]
  rw [matchList_seqList_append]
  show ((seqList mida).seq ((Rx.grp "suffix" Rx.eps).seq Rx.eps)).matchList s
      [("prefix", [])] = _
  rw [matchList_congr_right (seqList mida)
    (fun s cap => matchList_seq_eps (Rx.grp "suffix" Rx.eps) s cap) s _]
  rw [matchList_seq_post]
  rw [matchList_caps (seqList mida) s _]
  rw [List.map_map]
  rfl

/-- The wrapped fragment of a group-free source: like the source, with the
"source" capture of the consumed text, the empty "suffix" capture in
front and the empty "prefix" capture at the back. -/
theorem matchList_wrapped_src (rsrc : Rx) (s : List Char) :
    (seqList (Rx.grp "prefix" Rx.eps ::
      ([Rx.grp "source" rsrc] ++ [Rx.grp "suffix" Rx.eps]))).matchList s []
      = (rsrc.matchList s []).map
        (fun x => (x.1, x.2.1, ("suffix", ([] : List Char)) ::
          ((("source", x.1) :: x.2.2) ++ [("prefix", ([] : List Char))]))) := by
  rw [matchList_wrapped]
  rw [show (seqList [Rx.grp "source" rsrc]).matchList s ([] : Caps)
      = (Rx.grp "source" rsrc).matchList s [] from
    matchList_seq_eps _ s _]
  simp only [Rx.matchList, List.map_map]
  rfl


example :
    (match mkRule "aa" [Tok.lit "cde"] none none 0 0 [] with
     | .ok r => applyRule r "abaaf"
     | .error e => .error (.expandErr e))
      = .ok "abcdef" := rfl

example : findReplace "aa" "cde" "abaaf" = .ok "abcdef" := rfl

/-- Names of a concatenated atom list. -/
theorem seqList_names_append : ∀ (l1 l2 : List Rx),
    (seqList (l1 ++ l2)).names = (seqList l1).names ++ (seqList l2).names := by
  intro l1
  induction l1 with
  | nil => intro l2; rfl
  | cons x l1 ih => intro l2; simp [seqList, Rx.names, ih, List.append_assoc]

/-- A group with an empty body is harmless for every epsOnly check. -/
theorem epsOnly_grpEps (n m : String) : epsOnly n (Rx.grp m Rx.eps) = true := by
  by_cases h : m = n <;> simp [epsOnly, h]

/-- epsOnly distributes over a concatenated atom list. -/
theorem epsOnly_seqList_append : ∀ (n : String) (l1 l2 : List Rx),
    epsOnly n (seqList (l1 ++ l2))
      = (epsOnly n (seqList l1) && epsOnly n (seqList l2)) := by
  intro n l1
  induction l1 with
  | nil => intro l2; simp [seqList, epsOnly]
  | cons x l1 ih => intro l2; simp [seqList, epsOnly, ih, Bool.and_assoc]

/-- A fragment not defining n passes every epsOnly check for n. -/
theorem epsOnly_of_not_mem : ∀ (n : String) (r : Rx), ¬ n ∈ r.names → epsOnly n r = true := by
  intro n r
  induction r with
  | eps => intro _; rfl
  | ch c => intro _; rfl
  | seq a b iha ihb =>
    intro h
    simp only [Rx.names, List.mem_append] at h
    push_neg at h
    simp [epsOnly, iha h.1, ihb h.2]
  | alt a b iha ihb =>
    intro h
    simp only [Rx.names, List.mem_append] at h
    push_neg at h
    simp [epsOnly, iha h.1, ihb h.2]
  | grp m r ihr =>
    intro h
    simp only [Rx.names, List.mem_cons] at h
    push_neg at h
    simp [epsOnly, ihr h.2, if_neg (fun hh : m = n => h.1 hh.symm)]

/-- When every group named n in the fragment has an empty body, every
capture of n is seeded or empty. -/
theorem matchList_epsOnly (n : String) : ∀ (r : Rx), epsOnly n r = true →
    ∀ s cap res, res ∈ r.matchList s cap → ∀ v, (n, v) ∈ res.2.2 →
      (n, v) ∈ cap ∨ v = [] := by
  intro r
  induction r with
  | eps =>
    intro _ s cap res hres v hv
    simp only [Rx.matchList, List.mem_singleton] at hres
    subst hres
    exact Or.inl hv
  | ch c =>
    intro _ s cap res hres v hv
    cases s with
    | nil => simp [Rx.matchList] at hres
    | cons x xs =>
      simp only [Rx.matchList] at hres
      by_cases hx : x = c
      · rw [if_pos hx] at hres
        simp only [List.mem_singleton] at hres
        subst hres
        exact Or.inl hv
      · rw [if_neg hx] at hres; simp at hres
  | seq a b iha ihb =>
    intro he s cap res hres v hv
    simp only [epsOnly, Bool.and_eq_true] at he
    simp only [Rx.matchList, List.mem_flatMap, List.mem_map] at hres
    obtain ⟨r1, hr1, r2, hr2, hres⟩ := hres
    subst hres
    rcases ihb he.2 _ _ _ hr2 v hv with hmid | hnil
    · exact iha he.1 _ _ _ hr1 v hmid
    · exact Or.inr hnil
  | alt a b iha ihb =>
    intro he s cap res hres v hv
    simp only [epsOnly, Bool.and_eq_true] at he
    simp only [Rx.matchList, List.mem_append] at hres
    rcases hres with h | h
    · exact iha he.1 _ _ _ h v hv
    · exact ihb he.2 _ _ _ h v hv
  | grp m r ihr =>
    intro he s cap res hres v hv
    simp only [epsOnly, Bool.and_eq_true] at he
    obtain ⟨hif, her⟩ := he
    simp only [Rx.matchList, List.mem_map] at hres
    obtain ⟨r1, hr1, hres⟩ := hres
    subst hres
    rcases List.mem_cons.mp hv with h1 | h2
    · rw [Prod.mk.injEq] at h1
      obtain ⟨hn, hv1⟩ := h1
      rw [if_pos hn.symm] at hif
      have hre : r = Rx.eps := by simpa using hif
      subst hre
      simp only [Rx.matchList, List.mem_singleton] at hr1
      subst hr1
      exact Or.inr hv1
    · exact ihr her _ _ _ hr1 v h2

/-- Seed captures do not change the stripped view of the matches. -/
theorem strip_seed (X : Rx) (t : List Char) (c : Caps) :
    ((X.matchList t c).map stripRes) = ((X.matchList t []).map stripRes) := by
  rw [matchList_caps X t c, List.map_map]
  rfl

/-- If every capture of n is empty, the lookup's default view is empty. -/
theorem lookupCaps_getD_nil (caps : Caps) (n : String)
    (h : ∀ v, (n, v) ∈ caps → v = []) : (lookupCaps caps n).getD [] = [] := by
  unfold lookupCaps
  cases hf : caps.find? (fun e => e.1 = n) with
  | none => rfl
  | some e =>
    have hmem := List.mem_of_find?_eq_some hf
    have he1 : e.1 = n := by simpa using List.find?_some hf
    have he2 : e.2 = [] := h e.2 (by rw [← he1]; exact hmem)
    simp [he2]

/-- Template expansion walks over backslash-free literal text
unchanged. -/
theorem expand_append_lit (gnames : List String) : ∀ (l : List Char),
    (∀ c ∈ l, ¬ c = '\\') → ∀ fuel tail caps,
    expandF gnames (l.length + fuel) (l ++ tail) caps
      = match expandF gnames fuel tail caps with
        | .ok out => .ok (l ++ out)
        | .error e => .error e := by
  intro l
  induction l with
  | nil =>
    intro _ fuel tail caps
    rw [List.nil_append]
    rw [show ([] : List Char).length + fuel = fuel by simp]
    cases expandF gnames fuel tail caps <;> rfl
  | cons c l ih =>
    intro hl fuel tail caps
    have hc : ¬ c = '\\' := hl c (by simp)
    rw [show (c :: l).length + fuel = (l.length + fuel) + 1 by simp; omega]
    rw [List.cons_append]
    rw [expandF.eq_def]
    dsimp only
    rw [if_neg hc]
    rw [ih (fun c2 hc2 => hl c2 (by simp [hc2])) fuel tail caps]
    cases expandF gnames fuel tail caps <;> rfl

/-- Template expansion of a reference to a pattern-defined group
substitutes the group's capture, or the empty string when the group did
not participate, and continues. -/
theorem expand_gref (gnames : List String) (name : String)
    (hw : ∀ x ∈ name.data, isWordChar x = true) (hne : ¬ name.data.isEmpty = true)
    (hmem : name ∈ gnames) (caps : Caps) : ∀ fuel tail,
    expandF gnames (fuel + 1) ('\\' :: 'g' :: '<' :: (name.data ++ ('>' :: tail))) caps
      = match expandF gnames fuel tail caps with
        | .ok out => .ok ((lookupCaps caps name).getD [] ++ out)
        | .error e => .error e := by
  intro fuel tail
  rw [expandF.eq_def]
  dsimp only
  rw [if_pos rfl]
  rw [if_pos ⟨rfl, rfl⟩]
  rw [takeWhile_all_append tail hw (by decide)]
  rw [if_neg hne]
  rw [List.drop_left]
  dsimp only
  rw [if_pos rfl]
  rw [show String.mk name.data = name from rfl]
  rw [if_pos hmem]

/-- Expanding the wrapped replacement of a plain-text target, against the
captures of any match of a pattern that defines "prefix" and "suffix" and
captures them (if at all) as empty strings, yields the target text. -/
theorem expand_wrapRepl (gnames : List String) (T : String)
    (hT : ∀ c ∈ T.data, ¬ c = '\\')
    (hpn : "prefix" ∈ gnames) (hsn : "suffix" ∈ gnames) (caps : Caps)
    (hp : (lookupCaps caps "prefix").getD [] = [])
    (hs : (lookupCaps caps "suffix").getD [] = []) :
    expandF gnames (T.data.length + 21)
        ('\\' :: 'g' :: '<' :: ("prefix".data ++ ('>' :: (T.data ++
          ('\\' :: 'g' :: '<' :: ("suffix".data ++ ('>' :: [])))))))
        caps = .ok T.data := by
  rw [show T.data.length + 21 = (T.data.length + 20) + 1 from rfl]
  rw [expand_gref gnames "prefix" (by decide) (by decide) hpn caps (T.data.length + 20) _]
  rw [hp]
  rw [expand_append_lit gnames T.data hT 20 _ caps]
  rw [show (20 : Nat) = 19 + 1 from rfl]
  rw [expand_gref gnames "suffix" (by decide) (by decide) hsn caps 19 []]
  rw [hs]
  rw [show expandF gnames 19 [] caps = .ok [] from rfl]
  simp

/-- The captures of the leftmost match come from some actual match of the
fragment. -/
theorem firstMatch_mem (r : Rx) : ∀ fuel s m, firstMatchF fuel r s = some m →
    ∃ t res, res ∈ r.matchList t [] ∧ res.2.2 = m.2.2.2 := by
  intro fuel
  induction fuel with
  | zero => intro s m h; simp [firstMatchF] at h
  | succ fuel ih =>
    intro s m h
    rw [firstMatchF.eq_def] at h
    dsimp only at h
    cases hh : (r.matchList s []).head? with
    | some m0 =>
      rw [hh] at h
      dsimp only [Option.map, Option.orElse] at h
      have hA := Option.some.inj h
      refine ⟨s, m0, List.mem_of_mem_head? (by rw [hh]; rfl), ?_⟩
      rw [← hA]
    | none =>
      rw [hh] at h
      dsimp only [Option.map, Option.orElse] at h
      cases s with
      | nil => simp at h
      | cons x xs =>
        dsimp only at h
        cases hf : firstMatchF fuel r xs with
        | none => rw [hf] at h; simp at h
        | some m2 =>
          rw [hf] at h
          dsimp only [Option.map] at h
          have hA := Option.some.inj h
          obtain ⟨t, res, hres, hcaps⟩ := ih xs m2 hf
          exact ⟨t, res, hres, by rw [hcaps, ← hA]⟩

/-- Fragments with the same stripped matches have the same leftmost match
up to captures. -/
theorem firstMatch_strip (W core : Rx)
    (hstrip : ∀ t, (W.matchList t []).map stripRes = (core.matchList t []).map stripRes) :
    ∀ fuel s,
    (firstMatchF fuel W s).map (fun m => (m.1, m.2.1, m.2.2.1))
      = (firstMatchF fuel core s).map (fun m => (m.1, m.2.1, m.2.2.1)) := by
  intro fuel
  induction fuel with
  | zero => intro s; rfl
  | succ fuel ih =>
    intro s
    rw [firstMatchF.eq_def, firstMatchF.eq_def]
    dsimp only
    have hh : (W.matchList s []).head?.map stripRes
        = (core.matchList s []).head?.map stripRes := by
      rw [← List.head?_map, ← List.head?_map, hstrip s]
    cases hcw : (W.matchList s []).head? with
    | some mW =>
      rw [hcw] at hh
      cases hcc : (core.matchList s []).head? with
      | none => rw [hcc] at hh; simp at hh
      | some mC =>
        rw [hcc] at hh
        simp only [Option.map, Option.some.injEq, stripRes, Prod.mk.injEq] at hh
        obtain ⟨h1, h2⟩ := hh
        dsimp only [Option.map, Option.orElse]
        rw [h1, h2]
    | none =>
      rw [hcw] at hh
      cases hcc : (core.matchList s []).head? with
      | some mC => rw [hcc] at hh; simp at hh
      | none =>
        dsimp only [Option.map, Option.orElse]
        cases s with
        | nil => rfl
        | cons x xs =>
          dsimp only
          have hixs := ih xs
          cases hfW : firstMatchF fuel W xs with
          | none =>
            cases hfC : firstMatchF fuel core xs with
            | none => rfl
            | some m2 => rw [hfW, hfC] at hixs; simp at hixs
          | some m1 =>
            cases hfC : firstMatchF fuel core xs with
            | none => rw [hfW, hfC] at hixs; simp at hixs
            | some m2 =>
              rw [hfW, hfC] at hixs
              simp only [Option.map, Option.some.injEq, Prod.mk.injEq] at hixs
              obtain ⟨e1, e2, e3⟩ := hixs
              simp only [Option.map, Option.some.injEq, Prod.mk.injEq]
              exact ⟨by rw [e1], e2, e3⟩

/-- Global substitution over a fragment whose replacer always yields the
target text on its matches behaves like plain find-and-replace over any
fragment with the same stripped matches. -/
theorem gsub_strip (W core : Rx) (T : String)
    (hstrip : ∀ t, (W.matchList t []).map stripRes = (core.matchList t []).map stripRes)
    (replW : Caps → Except ApplyErr (List Char))
    (hrepl : ∀ t res, res ∈ W.matchList t [] → replW res.2.2 = .ok T.data) :
    ∀ fuel cnt s, gsubF replW W fuel cnt s
      = gsubF (fun _ => .ok T.data) core fuel cnt s := by
  intro fuel
  induction fuel with
  | zero => intro cnt s; rfl
  | succ fuel ih =>
    intro cnt s
    rw [gsubF, gsubF]
    by_cases hcnt : cnt = some 0
    · rw [if_pos hcnt, if_pos hcnt]
    · rw [if_neg hcnt, if_neg hcnt]
      have hfm := firstMatch_strip W core hstrip (s.length + 1) s
      cases hfW : firstMatchF (s.length + 1) W s with
      | none =>
        cases hfC : firstMatchF (s.length + 1) core s with
        | none => rfl
        | some m2 => rw [hfW, hfC] at hfm; simp at hfm
      | some mW =>
        cases hfC : firstMatchF (s.length + 1) core s with
        | none => rw [hfW, hfC] at hfm; simp at hfm
        | some mC =>
          rw [hfW, hfC] at hfm
          obtain ⟨skW, cW, restW, kW⟩ := mW
          obtain ⟨skC, cC, restC, kC⟩ := mC
          simp only [Option.map, Option.some.injEq, Prod.mk.injEq] at hfm
          obtain ⟨e1, e2, e3⟩ := hfm
          subst e1
          subst e2
          subst e3
          obtain ⟨t, res, hres, hcaps⟩ := firstMatch_mem W _ s _ hfW
          dsimp only
          rw [show replW kW = .ok T.data from by
            have hcaps2 : res.2.2 = kW := hcaps
            rw [← hcaps2]
            exact hrepl t res hres]
          dsimp only
          cases cW with
          | nil =>
            dsimp only
            cases restW with
            | nil => rfl
            | cons x xs =>
              dsimp only
              rw [ih (cnt.map (· - 1)) xs]
          | cons c0 cs =>
            dsimp only
            rw [ih (cnt.map (· - 1)) restW]

/-- Appending the implicit suffix group to a fully parsed alternation
glues it onto the last branch: the glued parse succeeds, matches the same
consumed/rest pairs, defines "suffix", and keeps every epsOnly
invariant. -/
theorem parseAlt_glue : ∀ f s r, parseAltF f s = some (r, []) →
    ∃ r', parseAltF (f + 5) (s ++ "(?P<suffix>)".data) = some (r', []) ∧
      (∀ t, (r'.matchList t []).map stripRes = (r.matchList t []).map stripRes) ∧
      "suffix" ∈ r'.names ∧
      (∀ n, epsOnly n r = true → epsOnly n r' = true) := by
  intro f
  induction f with
  | zero => intro s r h; simp [parseAltF] at h
  | succ f ih =>
    intro s r h
    rw [parseAltF] at h
    cases hseq : parseSeqF f s with
    | none => rw [hseq] at h; simp at h
    | some pr =>
      obtain ⟨al, rest1⟩ := pr
      rw [hseq] at h
      dsimp only at h
      cases rest1 with
      | nil =>
        simp only [Option.some.injEq, Prod.mk.injEq] at h
        obtain ⟨h1, _⟩ := h
        refine ⟨seqList (al ++ [Rx.grp "suffix" Rx.eps]), ?_, ?_, ?_, ?_⟩
        · rw [show f + 1 + 5 = (f + 5) + 1 from rfl]
          rw [parseAltF]
          have hS : parseSeqF 5 ("(?P<suffix>)".data) = some ([Rx.grp "suffix" Rx.eps], []) := rfl
          rw [parseSeq_continue f 5 s _ al [Rx.grp "suffix" Rx.eps] [] hseq hS]
        · intro t
          rw [matchList_seqList_append]
          rw [show ((seqList al).seq (seqList [Rx.grp "suffix" Rx.eps])).matchList t ([] : Caps)
              = ((seqList al).seq ((Rx.grp "suffix" Rx.eps).seq Rx.eps)).matchList t [] from rfl]
          rw [matchList_congr_right (seqList al)
            (fun s2 cap2 => matchList_seq_eps (Rx.grp "suffix" Rx.eps) s2 cap2) t []]
          rw [matchList_seq_post]
          rw [List.map_map]
          rw [← h1]
          rfl
        · rw [seqList_names_append]
          simp [seqList, Rx.names]
        · intro n hn
          rw [← h1] at hn
          rw [epsOnly_seqList_append]
          simp only [Bool.and_eq_true]
          refine ⟨hn, ?_⟩
          show epsOnly n ((Rx.grp "suffix" Rx.eps).seq Rx.eps) = true
          simp [epsOnly, epsOnly_grpEps]
      | cons c rest2 =>
        dsimp only at h
        by_cases hc : c = '|'
        · subst hc
          rw [if_pos rfl] at h
          cases hrec : parseAltF f rest2 with
          | none => rw [hrec] at h; simp at h
          | some pr2 =>
            obtain ⟨r2, rest3⟩ := pr2
            rw [hrec] at h
            dsimp only at h
            simp only [Option.some.injEq, Prod.mk.injEq] at h
            obtain ⟨h1, h2⟩ := h
            subst h2
            obtain ⟨r2', hp2, hs2, hn2, he2⟩ := ih rest2 r2 hrec
            refine ⟨.alt (seqList al) r2', ?_, ?_, ?_, ?_⟩
            · rw [show f + 1 + 5 = (f + 5) + 1 from rfl]
              rw [parseAltF]
              have hsq := (parse_append f).2.1 s al '|' rest2 ("(?P<suffix>)".data) hseq
              have hsq2 := parseSeqF_mono_le (show f ≤ f + 5 by omega) hsq
              rw [hsq2]
              dsimp only
              rw [if_pos rfl]
              rw [hp2]
            · intro t
              rw [← h1]
              simp only [Rx.matchList, List.map_append]
              rw [hs2 t]
            · simp [Rx.names, hn2]
            · intro n hn
              rw [← h1] at hn
              simp only [epsOnly, Bool.and_eq_true] at hn ⊢
              exact ⟨hn.1, he2 n hn.2⟩
        · rw [if_neg hc] at h
          simp at h

/-- Pattern assembly around a group-bearing source: the assembled pattern
compiles to a fragment with the same stripped matches as the source, in
which "prefix" and "suffix" are defined as empty groups glued onto the
outer branches. -/
theorem compile_strip_ungrouped (src : String) (rsrc : Rx)
    (hsrc : parseAltF (2 * src.data.length + 7 + 1) src.data = some (rsrc, []))
    (hg : ¬ getGroups src = []) :
    ∃ W, compileRx (getPatternStr "" src "") = some W ∧
      (∀ t, (W.matchList t []).map stripRes = (rsrc.matchList t []).map stripRes) ∧
      "prefix" ∈ W.names ∧ "suffix" ∈ W.names ∧
      (∀ n, epsOnly n rsrc = true → epsOnly n W = true) := by
  rw [parseAltF] at hsrc
  cases hseq : parseSeqF (2 * src.data.length + 7) src.data with
  | none => rw [hseq] at hsrc; simp at hsrc
  | some pr =>
    obtain ⟨al1, rest1⟩ := pr
    rw [hseq] at hsrc
    dsimp only at hsrc
    cases rest1 with
    | nil =>
      simp only [Option.some.injEq, Prod.mk.injEq] at hsrc
      obtain ⟨h1, _⟩ := hsrc
      refine ⟨seqList (Rx.grp "prefix" Rx.eps :: (al1 ++ [Rx.grp "suffix" Rx.eps])),
        compile_wrapped_ungrouped src al1 hseq hg, ?_, ?_, ?_, ?_⟩
      · intro t
        rw [matchList_wrapped al1 t, List.map_map, ← h1]
        rfl
      · show "prefix" ∈ (Rx.seq (Rx.grp "prefix" Rx.eps)
          (seqList (al1 ++ [Rx.grp "suffix" Rx.eps]))).names
        simp [Rx.names]
      · show "suffix" ∈ (Rx.seq (Rx.grp "prefix" Rx.eps)
          (seqList (al1 ++ [Rx.grp "suffix" Rx.eps]))).names
        rw [Rx.names, seqList_names_append]
        simp [seqList, Rx.names]
      · intro n hn
        rw [← h1] at hn
        show epsOnly n (Rx.seq (Rx.grp "prefix" Rx.eps)
          (seqList (al1 ++ [Rx.grp "suffix" Rx.eps]))) = true
        rw [show epsOnly n (Rx.seq (Rx.grp "prefix" Rx.eps)
            (seqList (al1 ++ [Rx.grp "suffix" Rx.eps])))
          = (epsOnly n (Rx.grp "prefix" Rx.eps)
            && epsOnly n (seqList (al1 ++ [Rx.grp "suffix" Rx.eps]))) from rfl]
        rw [epsOnly_seqList_append]
        simp only [Bool.and_eq_true]
        refine ⟨by simp [epsOnly_grpEps], hn, ?_⟩
        show epsOnly n ((Rx.grp "suffix" Rx.eps).seq Rx.eps) = true
        simp [epsOnly, epsOnly_grpEps]
    | cons c rest2 =>
      dsimp only at hsrc
      by_cases hc : c = '|'
      · subst hc
        rw [if_pos rfl] at hsrc
        cases hrec : parseAltF (2 * src.data.length + 7) rest2 with
        | none => rw [hrec] at hsrc; simp at hsrc
        | some pr2 =>
          obtain ⟨r2, rest3⟩ := pr2
          rw [hrec] at hsrc
          dsimp only at hsrc
          simp only [Option.some.injEq, Prod.mk.injEq] at hsrc
          obtain ⟨h1, h2⟩ := hsrc
          subst h2
          obtain ⟨r2', hp2, hs2, hn2, he2⟩ := parseAlt_glue _ _ _ hrec
          have hseqApp := (parse_append (2 * src.data.length + 7)).2.1 src.data al1 '|'
            rest2 ("(?P<suffix>)".data) hseq
          have hseqApp2 := parseSeqF_mono_le
            (show 2 * src.data.length + 7 ≤ 2 * src.data.length + 10 + 2 by omega) hseqApp
          have hin2 : parseAltF (2 * src.data.length + 10) [] = some (.eps, []) := by
            have := parseAlt_nil (2 * src.data.length + 8)
            rwa [show 2 * src.data.length + 8 + 2 = 2 * src.data.length + 10 from rfl] at this
          have hatom := parseSeq_grpAtom "prefix" (by decide) (by decide) [] .eps
            (2 * src.data.length + 10) (src.data ++ "(?P<suffix>)".data) hin2
          rw [hseqApp2] at hatom
          have hp2b := parseAltF_mono_le
            (show 2 * src.data.length + 7 + 5 ≤ 2 * src.data.length + 10 + 3 by omega) hp2
          have hW : parseAltF (2 * src.data.length + 10 + 3 + 1)
              ('(' :: '?' :: 'P' :: '<' :: ("prefix".data ++ ('>' :: ([] ++ (')' ::
                (src.data ++ "(?P<suffix>)".data))))))
              = some (.alt (seqList (Rx.grp "prefix" Rx.eps :: al1)) r2', []) := by
            rw [parseAltF, hatom]
            dsimp only
            rw [if_pos rfl]
            rw [hp2b]
          have hP : getPatternStr "" src ""
              = (ezreGroup "prefix" "" ++ (if getGroups src = [] then ezreGroup "source" src
                  else src)) ++ ezreGroup "suffix" "" := rfl
          rw [if_neg hg] at hP
          have hPd : (getPatternStr "" src "").data
              = (ezreGroup "prefix" "").data ++ (src.data ++ (ezreGroup "suffix" "").data) := by
            rw [hP]
            simp [String.data_append, List.append_assoc]
          have hW2 : parseAltF (2 * src.data.length + 10 + 3 + 1)
              ((ezreGroup "prefix" "").data ++ (src.data ++ (ezreGroup "suffix" "").data))
              = some (.alt (seqList (Rx.grp "prefix" Rx.eps :: al1)) r2', []) := by
            rw [show (ezreGroup "prefix" "").data ++ (src.data ++ (ezreGroup "suffix" "").data)
                = '(' :: '?' :: 'P' :: '<' :: ("prefix".data ++ ('>' :: ([] ++ (')' ::
                  (src.data ++ "(?P<suffix>)".data))))) from rfl]
            exact hW
          have hle : 2 * src.data.length + 10 + 3 + 1 ≤ pfuel (getPatternStr "" src "") := by
            unfold pfuel
            rw [hPd]
            have e1 : (ezreGroup "prefix" "").data.length = 12 := rfl
            have e2 : (ezreGroup "suffix" "").data.length = 12 := rfl
            simp only [List.length_append, e1, e2]
            omega
          have hW3 := parseAltF_mono_le hle hW2
          refine ⟨.alt (seqList (Rx.grp "prefix" Rx.eps :: al1)) r2', ?_, ?_, ?_, ?_, ?_⟩
          · unfold compileRx
            rw [hPd, hW3]
          · intro t
            rw [← h1]
            simp only [Rx.matchList, List.map_append]
            rw [hs2 t]
            congr 1
            rw [show (List.map (fun r1 => (r1.1, r1.2.1, ("prefix", r1.1) :: r1.2.2))
                  [(([] : List Char), t, ([] : Caps))])
                = [(([] : List Char), t, ([("prefix", ([] : List Char))] : Caps))] from rfl]
            rw [List.flatMap_cons, List.flatMap_nil, List.append_nil, List.map_map]
            exact strip_seed (seqList al1) t _
          · show "prefix" ∈ ((Rx.seq (Rx.grp "prefix" Rx.eps) (seqList al1)).names
              ++ r2'.names)
            simp [Rx.names]
          · show "suffix" ∈ ((Rx.seq (Rx.grp "prefix" Rx.eps) (seqList al1)).names
              ++ r2'.names)
            simp [Rx.names, hn2]
          · intro n hn
            rw [← h1] at hn
            simp only [epsOnly, Bool.and_eq_true] at hn ⊢
            refine ⟨⟨?_, hn.1⟩, he2 n hn.2⟩
            exact ⟨by by_cases hpn : "prefix" = n <;> simp [hpn], trivial⟩
      · rw [if_neg hc] at hsrc
        simp at hsrc

/-- Applying a rule whose pattern compiles to a fragment that matches like
the source (with "prefix" and "suffix" defined as always-empty groups) and
whose replacement is the wrapped plain text is exactly the plain global
find-and-replace of the source pattern by the target text. -/
theorem applyRule_plain_eq (patS src T s : String) (W rsrc : Rx)
    (hcw : compileRx patS = some W)
    (hcsrc : compileRx src = some rsrc)
    (hstrip : ∀ t, (W.matchList t []).map stripRes = (rsrc.matchList t []).map stripRes)
    (hpn : "prefix" ∈ W.names) (hsn : "suffix" ∈ W.names)
    (hepsP : epsOnly "prefix" W = true) (hepsS : epsOnly "suffix" W = true)
    (hT : ∀ c ∈ T.data, ¬ c = '\\') :
    applyRule ⟨patS, "\\g<prefix>" ++ (T ++ "") ++ "\\g<suffix>", [], [], 0, 0⟩ s
      = findReplace src T s := by
  have hRd : ("\\g<prefix>" ++ (T ++ "") ++ "\\g<suffix>").data
      = '\\' :: 'g' :: '<' :: ("prefix".data ++ ('>' :: (T.data ++
          ('\\' :: 'g' :: '<' :: ("suffix".data ++ ('>' :: [])))))) := by
    simp only [String.data_append]
    simp [List.append_assoc]
  have hRlen : ("\\g<prefix>" ++ (T ++ "") ++ "\\g<suffix>").data.length
      = T.data.length + 20 := by
    rw [hRd]
    simp [List.length_append, List.length_cons]
  unfold applyRule
  dsimp only
  rw [hcw]
  dsimp only
  rw [if_neg (by simp : ¬ (0 : Nat) ≠ 0)]
  rw [if_pos rfl, if_pos rfl]
  unfold findReplace
  rw [hcsrc]
  dsimp only
  rw [gsub_strip W rsrc T hstrip _
    (fun t res hres => by
      show expandF W.names (("\\g<prefix>" ++ (T ++ "") ++ "\\g<suffix>").data.length + 1)
        ("\\g<prefix>" ++ (T ++ "") ++ "\\g<suffix>").data res.2.2 = .ok T.data
      rw [show ("\\g<prefix>" ++ (T ++ "") ++ "\\g<suffix>").data.length + 1
          = T.data.length + 21 from by rw [hRlen]]
      rw [hRd]
      exact expand_wrapRepl W.names T hT hpn hsn res.2.2
        (lookupCaps_getD_nil _ _ (fun v hv =>
          (matchList_epsOnly "prefix" W hepsP t [] res hres v hv).resolve_left (by simp)))
        (lookupCaps_getD_nil _ _ (fun v hv =>
          (matchList_epsOnly "suffix" W hepsS t [] res hres v hv).resolve_left (by simp))))
    (s.data.length + 1) none s.data]

/-- C2: for every rule with a plain backslash-free text target, no
context, no mappings and default count and flags, whose source pattern
lies in the modelled fragment and does not itself define the reserved
group names "prefix" or "suffix", applying the rule to any string is
exactly the plain global find-and-replace of every non-overlapping,
leftmost match of the source pattern by the target text.  The implicit
prefix and suffix groups glued onto the pattern's outer branches always
capture the empty string when they participate, and the engine
substitutes the empty string for them when they do not (Python >= 3.5
expand semantics), so the wrapped replacement always produces the bare
target text. -/
theorem C2_theorem (src T s : String) (rsrc : Rx)
    (hsrc : parseAltF (2 * src.data.length + 7 + 1) src.data = some (rsrc, []))
    (hT : ∀ c ∈ T.data, ¬ c = '\\')
    (hp : ¬ "prefix" ∈ rsrc.names)
    (hsuf : ¬ "suffix" ∈ rsrc.names) :
    ∃ r, mkRule src [Tok.lit T] none none 0 0 [] = .ok r ∧
      applyRule r s = findReplace src T s := by
  have hcsrc : compileRx src = some rsrc := by
    unfold compileRx pfuel
    rw [show 2 * src.data.length + 8 = 2 * src.data.length + 7 + 1 from rfl]
    rw [hsrc]
  refine ⟨⟨getPatternStr "" src "", "\\g<prefix>" ++ (T ++ "") ++ "\\g<suffix>",
    [], [], 0, 0⟩, rfl, ?_⟩
  by_cases hg : getGroups src = []
  · have hcw := compile_wrapped_grouped src rsrc hsrc hg
    refine applyRule_plain_eq _ src T s _ rsrc hcw hcsrc ?_ ?_ ?_ ?_ ?_ hT
    · intro t
      rw [matchList_wrapped_src rsrc t, List.map_map]
      rfl
    · show "prefix" ∈ (Rx.seq (Rx.grp "prefix" Rx.eps)
        (seqList ([Rx.grp "source" rsrc] ++ [Rx.grp "suffix" Rx.eps]))).names
      simp [Rx.names]
    · show "suffix" ∈ (Rx.seq (Rx.grp "prefix" Rx.eps)
        (seqList ([Rx.grp "source" rsrc] ++ [Rx.grp "suffix" Rx.eps]))).names
      rw [Rx.names, seqList_names_append]
      simp [seqList, Rx.names]
    · show epsOnly "prefix" (Rx.seq (Rx.grp "prefix" Rx.eps)
        (seqList ([Rx.grp "source" rsrc] ++ [Rx.grp "suffix" Rx.eps]))) = true
      rw [show epsOnly "prefix" (Rx.seq (Rx.grp "prefix" Rx.eps)
          (seqList ([Rx.grp "source" rsrc] ++ [Rx.grp "suffix" Rx.eps])))
        = (epsOnly "prefix" (Rx.grp "prefix" Rx.eps)
          && epsOnly "prefix" (seqList ([Rx.grp "source" rsrc] ++ [Rx.grp "suffix" Rx.eps])))
        from rfl]
      rw [epsOnly_seqList_append]
      simp only [Bool.and_eq_true]
      refine ⟨by simp [epsOnly_grpEps], ?_, ?_⟩
      · show epsOnly "prefix" ((Rx.grp "source" rsrc).seq Rx.eps) = true
        simp [epsOnly, epsOnly_of_not_mem "prefix" rsrc hp]
      · show epsOnly "prefix" ((Rx.grp "suffix" Rx.eps).seq Rx.eps) = true
        simp [epsOnly, epsOnly_grpEps]
    · show epsOnly "suffix" (Rx.seq (Rx.grp "prefix" Rx.eps)
        (seqList ([Rx.grp "source" rsrc] ++ [Rx.grp "suffix" Rx.eps]))) = true
      rw [show epsOnly "suffix" (Rx.seq (Rx.grp "prefix" Rx.eps)
          (seqList ([Rx.grp "source" rsrc] ++ [Rx.grp "suffix" Rx.eps])))
        = (epsOnly "suffix" (Rx.grp "prefix" Rx.eps)
          && epsOnly "suffix" (seqList ([Rx.grp "source" rsrc] ++ [Rx.grp "suffix" Rx.eps])))
        from rfl]
      rw [epsOnly_seqList_append]
      simp only [Bool.and_eq_true]
      refine ⟨by simp [epsOnly_grpEps], ?_, ?_⟩
      · show epsOnly "suffix" ((Rx.grp "source" rsrc).seq Rx.eps) = true
        simp [epsOnly, epsOnly_of_not_mem "suffix" rsrc hsuf]
      · show epsOnly "suffix" ((Rx.grp "suffix" Rx.eps).seq Rx.eps) = true
        simp [epsOnly, epsOnly_grpEps]
  · obtain ⟨W, hcw, hstrip, hpn, hsn, heps⟩ := compile_strip_ungrouped src rsrc hsrc hg
    exact applyRule_plain_eq _ src T s W rsrc hcw hcsrc hstrip hpn hsn
      (heps "prefix" (epsOnly_of_not_mem "prefix" rsrc hp))
      (heps "suffix" (epsOnly_of_not_mem "suffix" rsrc hsuf)) hT

/-- Witness for C2: the doctest rule source="aa", target="cde" applied to
"abaaf" coincides with plain find-and-replace, which returns "abcdef". -/
theorem C2_witness :
    (∃ r, mkRule "aa" [Tok.lit "cde"] none none 0 0 [] = .ok r ∧
      applyRule r "abaaf" = findReplace "aa" "cde" "abaaf") ∧
    findReplace "aa" "cde" "abaaf" = .ok "abcdef" :=
  ⟨ C2_theorem "aa" "cde" "abaaf" (Rx.seq (Rx.ch 'a') (Rx.seq (Rx.ch 'a') Rx.eps))
    rfl (by decide) (by decide) (by decide), rfl⟩

example :
    (match mkRule "(?P<v>a)|e" [Tok.lit "x"] none none 0 0 [] with
     | .ok r => applyRule r "e"
     | .error e => .error (.expandErr e))
      = .ok "x" := rfl

example : findReplace "(?P<v>a)|e" "x" "e" = .ok "x" := rfl

end Phoru
